import Mathlib

/-!
Verification of the simfin time-series alignment and derived-signal engine.

This file gives a shallow embedding, in Lean 4, of the core numerical
routines of the simfin repository:

* `simfin/utils.py`   : `convert_to_periods`, the panel `apply` primitive;
* `simfin/rel_change.py` : `rel_change` and `mean_log_change`;
* `simfin/resample.py` : `reindex` (with its fill methods) and `index_union`;
* `simfin/derived.py` : `free_cash_flow`.

Modelling conventions:

* A numeric cell is `Option ℚ`; `none` models a non-numeric placeholder
  (NaN, or the inf/NaN values NumPy produces for division by zero and for
  logarithms of non-positive numbers, all of which the spec groups as the
  data-level `UndefinedResult` outcome).
* A single-entity series is a `List (Option ℚ)` in date order; for the
  shift/rolling routines the data is assumed complete at its frequency,
  so only positions matter, exactly as in the Python code.
* A panel (a DataFrame with a (ticker, date) MultiIndex) is a flat list of
  rows tagged with their entity key; the groupby-split-apply-merge of
  `utils.apply` becomes an explicit regrouping of that list.
* Python exceptions become an `Except PyErr` result; float division is
  `pydiv`, which fails with `ZeroDivisionError` on a zero denominator.
* Python's `round` (round-half-to-even) is `pyround` on exact rationals.
* The real-valued float operations `x ** y` and `log x` have no rational
  realization, so they are passed to the embedded functions as explicit
  parameters (`powf`, `logf`); every theorem below holds for all choices
  of these parameters.
-/

namespace SimFin

/-- Numeric cell of a DataFrame: `none` is a non-numeric placeholder (NaN). -/
abbrev Val := Option ℚ

/-- Entity key of a panel row (the `TICKER` level of the MultiIndex). -/
abbrev Entity := String

/-- Python exception outcomes raised by the embedded code. -/
inductive PyErr where
  /-- Python `ValueError` with its message. -/
  | valueError (msg : String)
  /-- Python `AssertionError` from a failing `assert` statement. -/
  | assertionError
  /-- Python `ZeroDivisionError` from dividing by zero. -/
  | zeroDivisionError
deriving DecidableEq, Repr

instance {e a : Type} [DecidableEq e] [DecidableEq a] : DecidableEq (Except e a) := fun x y =>
  match x, y with
  | .ok u, .ok v =>
    if h : u = v then .isTrue (by rw [h]) else .isFalse (by intro hc; cases hc; exact h rfl)
  | .error u, .error v =>
    if h : u = v then .isTrue (by rw [h]) else .isFalse (by intro hc; cases hc; exact h rfl)
  | .ok _, .error _ => .isFalse (by intro hc; cases hc)
  | .error _, .ok _ => .isFalse (by intro hc; cases hc)

/-- Python `str.lower()`: lower-case every character (the kernel-reducible
model of the `freq.lower()` normalization in `convert_to_periods`). -/
def pyLower (s : String) : String := ⟨s.data.map Char.toLower⟩

/-- Python float division: raises `ZeroDivisionError` on a zero denominator. -/
def pydiv (a b : ℚ) : Except PyErr ℚ :=
  if b = 0 then .error .zeroDivisionError else .ok (a / b)

/-- Python's built-in `round` to the nearest integer, ties to even. -/
def pyround (x : ℚ) : ℤ :=
  let f := ⌊x⌋
  let frac := x - f
  if frac < 1/2 then f
  else if 1/2 < frac then f + 1
  else if f % 2 = 0 then f else f + 1

/-! ## Frequency and period conversion (`simfin/utils.py`) -/

/-- Average number of business- or trading-days in a year (`BDAYS_PER_YEAR`). -/
def BDAYS_PER_YEAR : ℚ := 251.67

/-- Average number of week-days in a year (`DAYS_PER_YEAR`). -/
def DAYS_PER_YEAR : ℚ := 365.25

/-- Number of weeks per year (`WEEKS_PER_YEAR`). -/
def WEEKS_PER_YEAR : ℚ := 52

/-- Number of months per year (`MONTHS_PER_YEAR`). -/
def MONTHS_PER_YEAR : ℚ := 12

/-- Number of quarters per year (`QUARTERS_PER_YEAR`). -/
def QUARTERS_PER_YEAR : ℚ := 4

/-- The frequency strings accepted by `convert_to_periods`, grouped in the
source into six branches: trading-day, calendar-day, week, month,
quarter (which includes TTM data), and year. -/
def validFreqStrings : List String :=
  ["bdays", "b", "days", "d", "weeks", "w", "months", "m",
   "quarters", "q", "ttm", "years", "y", "annual", "a"]

/-- Units-per-year constant of the six frequency classes, keyed by any of the
(lower-cased) strings of the class. Used only to state theorems uniformly;
the branches of `convert_to_periods` are translated one by one. -/
def unitsPerYear (f : String) : ℚ :=
  if f = "bdays" ∨ f = "b" then BDAYS_PER_YEAR
  else if f = "days" ∨ f = "d" then DAYS_PER_YEAR
  else if f = "weeks" ∨ f = "w" then WEEKS_PER_YEAR
  else if f = "months" ∨ f = "m" then MONTHS_PER_YEAR
  else if f = "quarters" ∨ f = "q" ∨ f = "ttm" then QUARTERS_PER_YEAR
  else 1

/-- Embedding of `simfin.utils.convert_to_periods`: convert a duration given
as counts of business-days, days, weeks, months, quarters and years into the
number of periods a DataFrame of frequency `freq` must be shifted, plus the
number of years actually realized by that (rounded) number of periods.
Raises `ValueError` on an unsupported frequency string. -/
def convert_to_periods (freq : String) (bdays days weeks months quarters years : ℚ) :
    Except PyErr (ℤ × ℚ) :=
  let total_years := bdays / BDAYS_PER_YEAR + days / DAYS_PER_YEAR
      + weeks / WEEKS_PER_YEAR + months / MONTHS_PER_YEAR
      + quarters / QUARTERS_PER_YEAR + years
  let f := pyLower freq
  if f = "bdays" ∨ f = "b" then
    let periods := pyround (BDAYS_PER_YEAR * total_years)
    .ok (periods, (periods : ℚ) / BDAYS_PER_YEAR)
  else if f = "days" ∨ f = "d" then
    let periods := pyround (DAYS_PER_YEAR * total_years)
    .ok (periods, (periods : ℚ) / DAYS_PER_YEAR)
  else if f = "weeks" ∨ f = "w" then
    let periods := pyround (WEEKS_PER_YEAR * total_years)
    .ok (periods, (periods : ℚ) / WEEKS_PER_YEAR)
  else if f = "months" ∨ f = "m" then
    let periods := pyround (MONTHS_PER_YEAR * total_years)
    .ok (periods, (periods : ℚ) / MONTHS_PER_YEAR)
  else if f = "quarters" ∨ f = "q" ∨ f = "ttm" then
    let periods := pyround (QUARTERS_PER_YEAR * total_years)
    .ok (periods, (periods : ℚ) / QUARTERS_PER_YEAR)
  else if f = "years" ∨ f = "y" ∨ f = "annual" ∨ f = "a" then
    let periods := pyround total_years
    .ok (periods, (periods : ℚ))
  else
    .error (.valueError ("Unsupported arg freq=" ++ freq))

/-- The nominal fractional-year total of a duration, as summed by
`convert_to_periods` before any rounding. -/
def totalYears (bdays days weeks months quarters years : ℚ) : ℚ :=
  bdays / BDAYS_PER_YEAR + days / DAYS_PER_YEAR + weeks / WEEKS_PER_YEAR
    + months / MONTHS_PER_YEAR + quarters / QUARTERS_PER_YEAR + years

/-! ## Elementwise cell arithmetic

NaN-propagating versions of the pandas elementwise operations: any operation
with a non-numeric operand is non-numeric, and a division whose denominator
is zero yields the non-numeric placeholder (NumPy's inf/NaN outcomes there
are data-level `UndefinedResult` values in the spec's sense, not numbers of
the rational model). -/

/-- Map a numeric function over a cell, propagating the placeholder. -/
def vmap (f : ℚ → ℚ) : Val → Val := Option.map f

/-- Elementwise division of cells. -/
def vdiv : Val → Val → Val
  | some a, some b => if b = 0 then none else some (a / b)
  | _, _ => none

/-- Elementwise subtraction of cells. -/
def vsub : Val → Val → Val
  | some a, some b => some (a - b)
  | _, _ => none

/-- Elementwise addition of cells. -/
def vadd : Val → Val → Val
  | some a, some b => some (a + b)
  | _, _ => none

/-- NumPy `log` on a cell: non-positive arguments yield a non-numeric result
(NumPy produces -inf/NaN there); the real-valued logarithm itself is the
parameter `logf`. -/
def vlog (logf : ℚ → ℚ) : Val → Val
  | none => none
  | some x => if x ≤ 0 then none else some (logf x)

/-! ## Positional series operations

A single-entity series is a `List Val` in ascending date order; the data is
assumed complete at its frequency, so the shift and rolling operations of
pandas act purely on positions. -/

/-- Pandas `Series.shift(periods=p)` (`p` may be negative):
`out[t] = s[t - p]` when that position exists, else the placeholder. -/
def shift (p : ℤ) (s : List Val) : List Val :=
  (List.range s.length).map fun (t : ℕ) =>
    if 0 ≤ (t : ℤ) - p ∧ (t : ℤ) - p < (s.length : ℤ) then
      s.getD ((t : ℤ) - p).toNat none
    else none

/-- Dot-product of a window of cells with the exponent weights, as computed
by `np.sum(x * exponent)`: a non-numeric cell anywhere in the window makes
the whole sum non-numeric. -/
def dotExp (w : List ℚ) (window : List Val) : Val :=
  (List.zipWith (fun v c => vmap (· * c) v) window w).foldr vadd (some 0)

/-- Pandas `Series.rolling(n).apply(dot, raw=True)` with the dot-product
window function: `out[t]` is the dot-product of the length-`n` window of
values ending at position `t` with the weights, non-numeric while fewer
than `n` observations are available. -/
def rollingDot (n : ℕ) (w : List ℚ) (s : List Val) : List Val :=
  (List.range s.length).map fun t =>
    if n ≤ t + 1 then dotExp w ((s.drop (t + 1 - n)).take n) else none

/-! ## Panels and the `apply` primitive (`simfin/utils.py`) -/

/-- A DataFrame in the shape `utils.apply` accepts: either a single-entity
frame with a plain date index, or a panel of rows tagged with their entity
key (the flattened (ticker, date) MultiIndex). -/
inductive Frame (α : Type) where
  | single (s : List α)
  | multi (rows : List (Entity × α))
deriving DecidableEq, Repr

/-- The sub-series of one entity inside a panel: the payloads of that
entity's rows, in order, with the entity key removed (the
`reset_index(group_index, drop=True)` step of `utils.apply`). -/
def entityRows (rows : List (Entity × α)) (k : Entity) : List α :=
  (rows.filter fun r => r.1 == k).map Prod.snd

/-- The group keys of a panel in the order pandas `groupby` visits them:
distinct keys, sorted ascending. -/
def sortedKeys (rows : List (Entity × α)) : List Entity :=
  List.insertionSort (· ≤ ·) (rows.map Prod.fst).dedup

/-- Embedding of the MultiIndex branch of `simfin.utils.apply`: split the
panel into per-entity sub-series, run `func` on each sub-series alone, and
glue the results back together under the original entity keys. -/
def applyPanel (func : List α → List β) (rows : List (Entity × α)) :
    List (Entity × β) :=
  (sortedKeys rows).flatMap fun k => (func (entityRows rows k)).map fun b => (k, b)

/-- Embedding of `simfin.utils.apply`: call `func` directly on a
date-indexed frame, and per entity on a panel. -/
def applyF (func : List α → List β) : Frame α → Frame β
  | .single s => .single (func s)
  | .multi rows => .multi (applyPanel func rows)

/-- Map a cell-level function over every row of a frame (the elementwise
whole-DataFrame arithmetic such as `df ** e - 1`). -/
def frameMap (g : α → β) : Frame α → Frame β
  | .single s => .single (s.map g)
  | .multi rows => .multi (rows.map fun r => (r.1, g r.2))

/-! ## Point change (`simfin/rel_change.py`, `rel_change`) -/

/-- The inner `_rel_change` closure of `simfin.rel_change.rel_change`:
divide the series by its copy shifted `p` steps into the past, and for a
future change shift the ratio `p` steps back. -/
def rel_change_grp (p : ℤ) (future : Bool) (s : List Val) : List Val :=
  let r := List.zipWith vdiv s (shift p s)
  if future then shift (-p) r else r

/-- Embedding of `simfin.rel_change.rel_change`. The float power `x ** e`
is the parameter `powf` (applied elementwise through `vmap`, so non-numeric
cells stay non-numeric, as NaN does under `**` and `-`). The division
`1.0 / shifted_years` of the annualized branch is Python float division and
raises `ZeroDivisionError` when the realized shift is zero years. -/
def rel_change (powf : ℚ → ℚ → ℚ) (df : Frame Val) (freq : String) (future : Bool)
    (bdays days weeks months quarters years : ℚ) (annualized : Bool) :
    Except PyErr (Frame Val) := do
  let pr ← convert_to_periods freq bdays days weeks months quarters years
  let periods := pr.1
  let shifted_years := pr.2
  let df_result := applyF (rel_change_grp periods future) df
  if annualized then
    let e ← pydiv 1 shifted_years
    pure (frameMap (vmap fun x => powf x e - 1) df_result)
  else
    pure (frameMap (vmap fun x => x - 1) df_result)

/-! ## Mean log-change (`simfin/rel_change.py`, `mean_log_change`) -/

/-- The exponent vector of `mean_log_change` before the past-change
reversal: for the annualized change, `1 / shifted_years[i]` with
`shifted_years` interpolated linearly from the min duration's to the max
duration's realized fractional years across the window; otherwise
`1 / (min_periods + i)` for the geometric mean in the data's own
frequency. Rational division is total, numpy's is not: at a zero divisor —
`min_periods = 0` (the first geometric exponent `1/0`, or zero realized
min-years in the annualized branch) or a window of length 1 with
`annualized` (the source's `np.arange(1)/(1-1)`) — the program's exponent
entries are `inf`/`nan` and its whole output is poisoned, so this vector
represents the source only on the non-degenerate domain `1 ≤ min_periods`
and, when annualized, `min_periods + 2 ≤ max_periods`, to which every
statement about it is confined. -/
def mlExponent (annualized : Bool) (min_periods max_periods : ℤ)
    (min_sy max_sy : ℚ) : List ℚ :=
  let num_periods := (max_periods - min_periods).toNat
  if annualized then
    (List.range num_periods).map fun (i : ℕ) =>
      1 / ((max_sy - min_sy) * ((i : ℚ) / ((num_periods : ℚ) - 1)) + min_sy)
  else
    (List.range num_periods).map fun (i : ℕ) =>
      1 / ((min_periods : ℚ) + (i : ℚ))

/-- The inner `_mean_log_change` closure: rolling dot-product of the
log-values with the exponent vector, shifted into alignment with `t`
(`-max_periods` for a future change, `+min_periods` for a past change), and
combined with `log(series[t]) * exponent_sum`, divided by the window
length. -/
def mean_log_change_grp (future : Bool) (min_periods max_periods : ℤ)
    (exponent : List ℚ) (df_log_grp : List Val) : List Val :=
  let num_periods := (max_periods - min_periods).toNat
  let exponent_sum := exponent.sum
  let df_windowed := rollingDot num_periods exponent df_log_grp
  if future then
    let w := shift (-max_periods) df_windowed
    (List.zipWith vsub w (df_log_grp.map (vmap (· * exponent_sum)))).map
      (vmap (· / (num_periods : ℚ)))
  else
    let w := shift min_periods df_windowed
    (List.zipWith vsub (df_log_grp.map (vmap (· * exponent_sum))) w).map
      (vmap (· / (num_periods : ℚ)))

/-- Embedding of `simfin.rel_change.mean_log_change`. The real logarithm of
`np.log` is the parameter `logf` (lifted by `vlog`, so non-positive values
become non-numeric). The `assert min_periods < max_periods` of the source
raises `AssertionError` before any series computation. -/
def mean_log_change (logf : ℚ → ℚ) (df : Frame Val) (freq : String) (future : Bool)
    (min_bdays min_days min_weeks min_months min_quarters min_years : ℚ)
    (max_bdays max_days max_weeks max_months max_quarters max_years : ℚ)
    (annualized : Bool) : Except PyErr (Frame Val) := do
  let mn ← convert_to_periods freq min_bdays min_days min_weeks min_months
      min_quarters min_years
  let mx ← convert_to_periods freq max_bdays max_days max_weeks max_months
      max_quarters max_years
  let min_periods := mn.1
  let max_periods := mx.1
  if min_periods < max_periods then
    let exponent0 := mlExponent annualized min_periods max_periods mn.2 mx.2
    let exponent := if future then exponent0 else exponent0.reverse
    let df_log := frameMap (vlog logf) df
    pure (applyF (mean_log_change_grp future min_periods max_periods exponent) df_log)
  else
    .error .assertionError

/-! ## Derived financial metrics (`simfin/derived.py`) -/

/-- Name of the Free Cash Flow column (`FCF` in `names_extra.py`). -/
def FCF : String := "Free Cash Flow"

/-- Modelled from the spec: `derived.py` imports the column-name constants
`NET_CASH_OPS` (net cash from operating activities) and `CAPEX` (capital
expenditure, stored as a signed disposals-minus-acquisitions value) from a
newer variant of `names.py` than the snapshot contains. The spec treats
column names as an opaque but fixed catalog, so they are fixed, distinct
strings here. -/
def NET_CASH_OPS : String := "Net Cash from Operating Activities"

/-- Modelled from the spec: see `NET_CASH_OPS`. -/
def CAPEX : String := "Change in Fixed Assets & Intangibles"

/-- Pandas `Series.fillna(0)`: replace non-numeric cells by zero. -/
def fillna0 (s : List Val) : List Val := s.map fun v => some (v.getD 0)

/-- Embedding of `simfin.derived.free_cash_flow`: the operating cash flow
column plus the (signed) capital expenditure column, absent cells first
replaced by zero, renamed to the Free Cash Flow column. A DataFrame with
named columns is a map from column names to columns. -/
def free_cash_flow (df_cashflow : String → List Val) : String × List Val :=
  (FCF, List.zipWith vadd (fillna0 (df_cashflow NET_CASH_OPS))
          (fillna0 (df_cashflow CAPEX)))

/-! ## Reindexing (`simfin/resample.py`)

A date-indexed series here keeps its index explicitly: it is a list of
(date, cell) rows, dates `ℤ`. A panel again tags rows with entity keys, so
its MultiIndex is the list of (entity, date) pairs. -/

/-- A date-indexed row. -/
abbrev DRow := ℤ × Val

/-- A single-entity date-indexed series. -/
abbrev DSeries := List DRow

/-- The date index of a series. -/
def dIndex (s : DSeries) : List ℤ := s.map Prod.fst

/-- Value of a series at a date label: the first row carrying that date,
non-numeric if the date is absent (pandas `reindex` inserts NaN rows for
new labels; source indexes are assumed label-unique as pandas requires). -/
def lookupD (s : DSeries) (d : ℤ) : Val :=
  match s.find? fun r => r.1 == d with
  | some r => r.2
  | none => none

/-- Pandas `DataFrame.reindex(index=idx)`: one row per requested label, in
the requested order, holding the source's value there or NaN. -/
def reindexTo (s : DSeries) (idx : List ℤ) : DSeries :=
  idx.map fun d => (d, lookupD s d)

/-- Embedding of `simfin.resample.index_union` (pandas `Index.union` with
its default `sort=None`): the distinct labels of the two indexes, sorted
ascending — except that two equal indexes, or a union with an empty index,
are returned as they are, unsorted. -/
def index_union (a b : List ℤ) : List ℤ :=
  if a = b then a
  else if a = [] then b
  else if b = [] then a
  else List.insertionSort (· ≤ ·) (a ++ b).dedup

/-- Last numeric cell of a list, if any. -/
def lastSome (l : List Val) : Val :=
  l.foldl (fun acc v => match v with | some x => some x | none => acc) none

/-- First numeric cell of a list, if any. -/
def firstSome (l : List Val) : Val :=
  match l.find? Option.isSome with
  | some v => v
  | none => none

/-- Pandas `ffill`: each cell becomes the most recent numeric value at or
before it; cells before the first numeric value stay non-numeric. -/
def ffillVals (l : List Val) : List Val :=
  (List.range l.length).map fun i => lastSome (l.take (i + 1))

/-- Pandas `bfill`: each cell becomes the next numeric value at or after
it; cells after the last numeric value stay non-numeric. -/
def bfillVals (l : List Val) : List Val :=
  (List.range l.length).map fun i => firstSome (l.drop i)

/-- Whether some cell strictly before position `i` is numeric. -/
def hasSomeBefore (l : List Val) (i : ℕ) : Bool := (l.take i).any Option.isSome

/-- Whether some cell strictly after position `i` is numeric. -/
def hasSomeAfter (l : List Val) (i : ℕ) : Bool := (l.drop (i + 1)).any Option.isSome

/-- Pandas `Series.interpolate` with its default forward limit direction:
numeric cells are kept; a non-numeric cell with numeric cells on both sides
is filled with the interpolant `g` of the series at that position; cells
before the first numeric value stay non-numeric; cells after the last
numeric value are filled with the last numeric value when the
interpolation kind extrapolates forward (`extendTail`, as NumPy-based
linear interpolation does) and stay non-numeric otherwise (as the
SciPy-based kinds such as quadratic do). -/
def interpVals (g : DSeries → ℕ → ℚ) (extendTail : Bool) (s : DSeries) : List Val :=
  let l := s.map Prod.snd
  (List.range l.length).map fun i =>
    match l.getD i none with
    | some x => some x
    | none =>
      if hasSomeBefore l i then
        if hasSomeAfter l i then some (g s i)
        else if extendTail then lastSome (l.take i)
        else none
      else none

/-- Position of the last numeric cell strictly before `i` (0 if none; only
used when one exists). -/
def prevValid (l : List Val) (i : ℕ) : ℕ :=
  ((List.range i).filter fun j => (l.getD j none).isSome).getLastD 0

/-- Position of the first numeric cell strictly after `i` (0 if none; only
used when one exists). -/
def nextValid (l : List Val) (i : ℕ) : ℕ :=
  match (List.range l.length).find? fun j => decide (i < j) && (l.getD j none).isSome with
  | some j => j
  | none => 0

/-- Numeric content of the cell at position `j` (0 for a placeholder; only
used on numeric cells). -/
def cellVal (l : List Val) (j : ℕ) : ℚ := (l.getD j none).getD 0

/-- The positional linear interpolant of pandas
`interpolate(method='linear')` (which ignores the index and treats values
as equally spaced): straight line between the nearest numeric neighbours. -/
def linearAt (s : DSeries) (i : ℕ) : ℚ :=
  let l := s.map Prod.snd
  let j := prevValid l i
  let k := nextValid l i
  cellVal l j + (cellVal l k - cellVal l j) * (((i : ℚ) - (j : ℚ)) / ((k : ℚ) - (j : ℚ)))

/-- The fill methods `_convert_method_arg` resolves that are valid for
`reindex` (its docstring excludes the summarizing `'mean'`): forward-fill,
backward-fill, and the interpolation family. `'linear'` is
`interp linearAt true`; the SciPy-based kinds such as `'quadratic'` are
`interp g false` where `g` is the kind's interpolant (kept parametric: no
claim depends on spline coefficients, only on which cells get filled). -/
inductive FillMethod where
  | ffill
  | bfill
  | interp (g : DSeries → ℕ → ℚ) (extendTail : Bool)

/-- The `'linear'` fill method. -/
def linearFill : FillMethod := .interp linearAt true

/-- Apply a fill method to the values of a series (`fill_func` in the
source, applied per entity through `utils.apply`). -/
def applyFillVals (m : FillMethod) (s : DSeries) : List Val :=
  match m with
  | .ffill => ffillVals (s.map Prod.snd)
  | .bfill => bfillVals (s.map Prod.snd)
  | .interp g et => interpVals g et s

/-- Apply a fill method to a series, keeping its index. -/
def applyFillS (m : FillMethod) (s : DSeries) : DSeries :=
  List.zip (dIndex s) (applyFillVals m s)

/-- Embedding of `simfin.resample.reindex` for two date-indexed
(single-entity) frames: reindex the source onto the union of the two
indexes (or just the target's if `union` is false), apply the fill method,
and, when `union ∧ only_target_index`, reindex once more down to exactly
the target's index. -/
def reindexS (df_src df_target : DSeries) (m : FillMethod)
    (union only_target_index : Bool) : DSeries :=
  let new_index := if union then index_union (dIndex df_src) (dIndex df_target)
                   else dIndex df_target
  let r1 := reindexTo df_src new_index
  let r2 := applyFillS m r1
  if union && only_target_index then reindexTo r2 (dIndex df_target) else r2

/-- A row of a panel with explicit dates: entity key, date, cell. -/
abbrev MRow := Entity × DRow

/-- The (entity, date) MultiIndex of a panel. -/
def mIndex (rows : List MRow) : List (Entity × ℤ) := rows.map fun r => (r.1, r.2.1)

/-- Value of a panel at an (entity, date) label. -/
def lookupM (rows : List MRow) (k : Entity × ℤ) : Val :=
  match rows.find? fun r => r.1 == k.1 && r.2.1 == k.2 with
  | some r => r.2.2
  | none => none

/-- Pandas `reindex` of a panel onto a MultiIndex. -/
def reindexToM (rows : List MRow) (idx : List (Entity × ℤ)) : List MRow :=
  idx.map fun k => (k.1, (k.2, lookupM rows k))

/-- Lexicographic order of MultiIndex labels, the order in which pandas
sorts the union of two MultiIndexes. -/
def lexLe : Entity × ℤ → Entity × ℤ → Prop :=
  fun a b => a.1 < b.1 ∨ (a.1 = b.1 ∧ a.2 ≤ b.2)

instance : DecidableRel lexLe := fun a b =>
  inferInstanceAs (Decidable (a.1 < b.1 ∨ (a.1 = b.1 ∧ a.2 ≤ b.2)))

/-- Pandas `Index.union` for MultiIndexes: as `index_union`, with labels
compared lexicographically. -/
def index_unionM (a b : List (Entity × ℤ)) : List (Entity × ℤ) :=
  if a = b then a
  else if a = [] then b
  else if b = [] then a
  else List.insertionSort lexLe (a ++ b).dedup

/-- Embedding of `simfin.resample.reindex` for two panels: as `reindexS`,
except that the fill method runs per entity through `utils.apply`. -/
def reindexM (df_src df_target : List MRow) (m : FillMethod)
    (union only_target_index : Bool) : List MRow :=
  let new_index := if union then index_unionM (mIndex df_src) (mIndex df_target)
                   else mIndex df_target
  let r1 := reindexToM df_src new_index
  let r2 := applyPanel (applyFillS m) r1
  if union && only_target_index then reindexToM r2 (mIndex df_target) else r2

/-- A date-carrying frame: single date index or (entity, date) MultiIndex. -/
inductive DFrame where
  | single (s : DSeries)
  | multi (rows : List MRow)

/-- Embedding of `simfin.resample.reindex`: the source's
`assert type(df_src.index) == type(df_target.index)` fails on mismatched
index types, otherwise the frames are reindexed by shape. -/
def reindex (df_src df_target : DFrame) (m : FillMethod)
    (union only_target_index : Bool) : Except PyErr DFrame :=
  match df_src, df_target with
  | .single s, .single t => .ok (.single (reindexS s t m union only_target_index))
  | .multi s, .multi t => .ok (.multi (reindexM s t m union only_target_index))
  | _, _ => .error .assertionError

/-! ## Shape predicates for the idempotence arguments

These predicates classify where non-numeric cells can sit in the output of
a fill method: a forward-fill (and a forward-extrapolating interpolation)
leaves placeholders only in a leading block, a backward-fill only in a
trailing block, and a non-extrapolating interpolation only in leading and
trailing blocks. -/

/-- Placeholders are downward closed: anything left of a placeholder is a
placeholder. -/
def nonesDown (l : List Val) : Prop :=
  ∀ i, i < l.length → l.getD i none = none → ∀ j, j ≤ i → l.getD j none = none

/-- Placeholders are upward closed: anything right of a placeholder is a
placeholder. -/
def nonesUp (l : List Val) : Prop :=
  ∀ i, i < l.length → l.getD i none = none → ∀ j, i ≤ j → l.getD j none = none

/-- Placeholders only at the edges: each placeholder has only placeholders
to its left or only placeholders to its right. -/
def nonesEdge (l : List Val) : Prop :=
  ∀ i, i < l.length → l.getD i none = none →
    (∀ j, j ≤ i → l.getD j none = none) ∨ (∀ j, i ≤ j → l.getD j none = none)

/-- The shape invariant each fill method's output satisfies (and which
makes that method act as the identity). -/
def fillPattern (m : FillMethod) (l : List Val) : Prop :=
  match m with
  | .ffill => nonesDown l
  | .bfill => nonesUp l
  | .interp _ true => nonesDown l
  | .interp _ false => nonesEdge l

/-- Strict lexicographic order on MultiIndex labels. -/
def lexLt : Entity × ℤ → Entity × ℤ → Prop :=
  fun a b => a.1 < b.1 ∨ (a.1 = b.1 ∧ a.2 < b.2)

/-- Strict lexicographic order on dated panel rows (by entity, then
date). -/
def mlexLt : MRow → MRow → Prop :=
  fun a b => a.1 < b.1 ∨ (a.1 = b.1 ∧ a.2.1 < b.2.1)

/-- The dates a MultiIndex assigns to one entity, in order (the date level
of that entity's cross-section). -/
def entityDates (idx : List (Entity × ℤ)) (k : Entity) : List ℤ :=
  (idx.filter fun p => p.1 == k).map Prod.snd

/-- The data model of the spec for date-carrying frames: a single date
index is strictly increasing, and an (entity, date) MultiIndex is strictly
increasing in the lexicographic order (entities grouped, dates strictly
increasing within each entity). -/
def wellFormed : DFrame → Prop
  | .single s => (dIndex s).Sorted (· < ·)
  | .multi rows => (mIndex rows).Sorted lexLt

instance : IsTrans (Entity × ℤ) lexLe where
  trans a b c hab hbc := by
    rcases hab with h1 | ⟨h1, h1'⟩ <;> rcases hbc with h2 | ⟨h2, h2'⟩
    · exact Or.inl (lt_trans h1 h2)
    · exact Or.inl (h2 ▸ h1)
    · exact Or.inl (h1 ▸ h2)
    · exact Or.inr ⟨h1.trans h2, le_trans h1' h2'⟩

instance : IsTotal (Entity × ℤ) lexLe where
  total a b := by
    rcases lt_trichotomy a.1 b.1 with h | h | h
    · exact Or.inl (Or.inl h)
    · rcases le_total a.2 b.2 with h' | h'
      · exact Or.inl (Or.inr ⟨h, h'⟩)
      · exact Or.inr (Or.inr ⟨h.symm, h'⟩)
    · exact Or.inr (Or.inl h)

/-! ## The object level: heaps of frame objects, fresh allocation, and
`inplace=True` writes

Python variables hold references to pandas objects. A pandas operation
without `inplace` returns a freshly allocated object; an `inplace=True`
call overwrites the object behind an existing reference. The following
embeds the cited transformations at that level, so that "no in-place
mutation of inputs" is a statement about the heap after the call. -/

/-- A heap of frame objects: reference-tagged values. -/
abbrev Heap (α : Type) : Type := List (ℕ × α)

/-- Dereference. -/
def readH {α : Type} (h : Heap α) (r : ℕ) : Option α :=
  match h.find? fun p => p.1 == r with
  | some p => some p.2
  | none => none

/-- A reference no cell of the heap carries. -/
def freshH {α : Type} (h : Heap α) : ℕ :=
  (h.map Prod.fst).foldr (fun a b => max a b) 0 + 1

/-- Overwrite the object behind a reference: the effect of an
`inplace=True` call. -/
def writeH {α : Type} (h : Heap α) (r : ℕ) (v : α) : Heap α :=
  h.map fun p => if p.1 = r then (r, v) else p

/-- Object-level embedding of `simfin.rel_change.rel_change`: `df` is a
reference into the heap. `df_result = apply(df=df, func=_rel_change, ...)`
allocates a fresh frame; `df_result = df_result ** (1.0/shifted_years) -
1.0` (resp. `df_result = df_result - 1.0`) allocates another fresh frame
and rebinds the variable; and the body's one `inplace=True` call —
`rename_columns(df=df_result, new_names=new_names, inplace=True)`, run
exactly when `new_names` is given (`rename`) — overwrites the heap cell of
that freshly built result, `renameF` standing for the column renaming. A
dangling input reference is modelled as an `AssertionError`; it cannot
occur, since the caller holds the object. -/
def rel_change_heap (powf : ℚ → ℚ → ℚ) (renameF : Frame Val → Frame Val)
    (h : Heap (Frame Val)) (df : ℕ) (freq : String) (future : Bool)
    (bdays days weeks months quarters years : ℚ)
    (annualized rename : Bool) : Except PyErr (ℕ × Heap (Frame Val)) :=
  match readH h df with
  | none => .error .assertionError
  | some v => do
    let pr ← convert_to_periods freq bdays days weeks months quarters years
    let v1 := applyF (rel_change_grp pr.1 future) v
    let h1 : Heap (Frame Val) := (freshH h, v1) :: h
    if annualized then do
      let e ← pydiv 1 pr.2
      let v2 := frameMap (vmap fun x => powf x e - 1) v1
      let r2 := freshH h1
      let h2 : Heap (Frame Val) := (r2, v2) :: h1
      pure (r2, if rename then writeH h2 r2 (renameF v2) else h2)
    else
      let v2 := frameMap (vmap fun x => x - 1) v1
      let r2 := freshH h1
      let h2 : Heap (Frame Val) := (r2, v2) :: h1
      pure (r2, if rename then writeH h2 r2 (renameF v2) else h2)

/-- Object-level embedding of `simfin.rel_change.mean_log_change`: the
arithmetic pipeline (all of whose steps return new frames, none being
in-place) is collapsed into the single allocation of the returned
`df_result`, and the one `inplace=True` call —
`rename_columns(df=df_result, new_names=new_names, inplace=True)` —
overwrites that fresh cell. -/
def mean_log_change_heap (logf : ℚ → ℚ) (renameF : Frame Val → Frame Val)
    (h : Heap (Frame Val)) (df : ℕ) (freq : String) (future : Bool)
    (min_bdays min_days min_weeks min_months min_quarters min_years : ℚ)
    (max_bdays max_days max_weeks max_months max_quarters max_years : ℚ)
    (annualized rename : Bool) : Except PyErr (ℕ × Heap (Frame Val)) :=
  match readH h df with
  | none => .error .assertionError
  | some v => do
    let vr ← mean_log_change logf v freq future min_bdays min_days min_weeks
      min_months min_quarters min_years max_bdays max_days max_weeks
      max_months max_quarters max_years annualized
    let r1 := freshH h
    let h1 : Heap (Frame Val) := (r1, vr) :: h
    pure (r1, if rename then writeH h1 r1 (renameF vr) else h1)

/-- Object-level embedding of `simfin.resample.reindex`: no statement of
its body is in-place (`df_src.reindex(...)`, the fill functions run
through `apply`, and the final reindex all return new frames), so the call
only allocates the returned frame. -/
def reindex_heap (h : Heap DFrame) (df_src df_target : ℕ) (m : FillMethod)
    (union only_target_index : Bool) : Except PyErr (ℕ × Heap DFrame) :=
  match readH h df_src, readH h df_target with
  | some vs, some vt => do
    let vr ← reindex vs vt m union only_target_index
    pure (freshH h, ((freshH h, vr) :: h : Heap DFrame))
  | _, _ => .error .assertionError

/-- Object-level embedding of `simfin.resample.resample`: the per-entity
composite `fill_func(df_grp.resample(rule=rule, **kwargs))` — the
frequency rule together with the fill method resolved by
`_convert_method_arg`, here the parameter `resampleF` since the pandas
calendar resampler is not embedded — runs through `utils.apply`, and no
step of the body is in-place, so the call only allocates the returned
frame. -/
def resample_heap (resampleF : List Val → List Val) (h : Heap (Frame Val))
    (df : ℕ) : Except PyErr (ℕ × Heap (Frame Val)) :=
  match readH h df with
  | none => .error .assertionError
  | some v =>
    .ok (freshH h, ((freshH h, applyF resampleF v) :: h : Heap (Frame Val)))

/-- Object-level embedding of the signal assemblers of `simfin.signals`
(`price_signals`, `volume_signals`, `fin_signals`, `val_signals`,
`growth_signals`): the per-entity builder `_signals` — which creates a
brand-new `pd.DataFrame` and fills its columns from the input, here the
parameter `signalsF` — runs through `utils.apply`, allocating the
returned `df_signals`; the closing
`df_signals.sort_index(axis='columns', inplace=True)` — the
column-sorting step, `sortColsF` — then overwrites that freshly
allocated cell in place and the same object is returned. The input frame
is only ever read. -/
def signals_heap (signalsF : List Val → List Val)
    (sortColsF : Frame Val → Frame Val) (h : Heap (Frame Val)) (df : ℕ) :
    Except PyErr (ℕ × Heap (Frame Val)) :=
  match readH h df with
  | none => .error .assertionError
  | some v =>
    let vs := applyF signalsF v
    let r1 := freshH h
    let h1 : Heap (Frame Val) := (r1, vs) :: h
    .ok (r1, writeH h1 r1 (sortColsF vs))

/-- The date-shift of `simfin.utils.add_date_offset`, value-level: every
date of the index moved by `offset` (the `df2[date_index] += offset`
step). -/
def addOffsetRows (offset : ℤ) (rows : List MRow) : List MRow :=
  rows.map fun r => (r.1, (r.2.1 + offset, r.2.2))

/-- Object-level embedding of `simfin.utils.add_date_offset`:
`df2 = df.reset_index(date_index)` copies the input into a fresh object,
`df2[date_index] += offset` mutates that fresh copy in place, and
`df2 = df2.set_index(date_index, append=True)` allocates the returned
frame and rebinds the variable — the input's cell is never written. -/
def add_date_offset_heap (h : Heap (List MRow)) (df : ℕ) (offset : ℤ) :
    Except PyErr (ℕ × Heap (List MRow)) :=
  match readH h df with
  | none => .error .assertionError
  | some v =>
    let h1 : Heap (List MRow) := (freshH h, v) :: h
    let h2 := writeH h1 (freshH h) (addOffsetRows offset v)
    .ok (freshH h2, ((freshH h2, addOffsetRows offset v) :: h2 : Heap (List MRow)))

/-! ## Lemmas about frequency conversion -/

lemma exceptBind_ok {e a b : Type} (x : a) (f : a → Except e b) :
    (Except.ok x : Except e a) >>= f = f x := rfl

lemma exceptMap_error {e a b : Type} (err : e) (f : a → b) :
    f <$> (Except.error err : Except e a) = .error err := rfl

lemma unitsPerYear_pos (f : String) : 0 < unitsPerYear f := by
  unfold unitsPerYear BDAYS_PER_YEAR DAYS_PER_YEAR WEEKS_PER_YEAR
    MONTHS_PER_YEAR QUARTERS_PER_YEAR
  split_ifs <;> norm_num

lemma convert_eq_of_mem (freq : String) (hm : pyLower freq ∈ validFreqStrings)
    (b d w m q y : ℚ) :
    convert_to_periods freq b d w m q y =
      .ok (pyround (unitsPerYear (pyLower freq) * totalYears b d w m q y),
        (pyround (unitsPerYear (pyLower freq) * totalYears b d w m q y) : ℚ)
          / unitsPerYear (pyLower freq)) := by
  unfold convert_to_periods totalYears unitsPerYear
  dsimp only
  split_ifs with h1 h2 h3 h4 h5 h6
  · rfl
  · rfl
  · rfl
  · rfl
  · rfl
  · norm_num
  · exfalso
    simp only [validFreqStrings, List.mem_cons, List.not_mem_nil, or_false] at hm
    rcases hm with h | h | h | h | h | h | h | h | h | h | h | h | h | h | h <;>
      simp [h] at h1 h2 h3 h4 h5 h6

lemma convert_error_of_not_mem (freq : String)
    (hm : pyLower freq ∉ validFreqStrings) (b d w m q y : ℚ) :
    convert_to_periods freq b d w m q y =
      .error (.valueError ("Unsupported arg freq=" ++ freq)) := by
  unfold convert_to_periods
  dsimp only
  split_ifs with h1 h2 h3 h4 h5 h6
  · exact absurd (by rcases h1 with h | h <;> simp [validFreqStrings, h]) hm
  · exact absurd (by rcases h2 with h | h <;> simp [validFreqStrings, h]) hm
  · exact absurd (by rcases h3 with h | h <;> simp [validFreqStrings, h]) hm
  · exact absurd (by rcases h4 with h | h <;> simp [validFreqStrings, h]) hm
  · exact absurd (by rcases h5 with h | h | h <;> simp [validFreqStrings, h]) hm
  · exact absurd (by rcases h6 with h | h | h | h <;> simp [validFreqStrings, h]) hm
  · rfl

lemma convert_ok_inv (freq : String) (b d w m q y : ℚ) (p : ℤ) (sy : ℚ)
    (h : convert_to_periods freq b d w m q y = .ok (p, sy)) :
    pyLower freq ∈ validFreqStrings ∧
      p = pyround (unitsPerYear (pyLower freq) * totalYears b d w m q y) ∧
      sy = (p : ℚ) / unitsPerYear (pyLower freq) := by
  by_cases hm : pyLower freq ∈ validFreqStrings
  · rw [convert_eq_of_mem freq hm] at h
    refine ⟨hm, ?_, ?_⟩
    · exact (congrArg Prod.fst (Except.ok.inj h)).symm
    · have h2 := congrArg Prod.snd (Except.ok.inj h)
      have h1 := congrArg Prod.fst (Except.ok.inj h)
      simp only at h1 h2
      rw [← h2, h1]
  · rw [convert_error_of_not_mem freq hm] at h
    exact absurd h (by simp)

lemma convert_sy_eq_zero_iff (freq : String) (b d w m q y : ℚ) (p : ℤ) (sy : ℚ)
    (h : convert_to_periods freq b d w m q y = .ok (p, sy)) :
    sy = 0 ↔ p = 0 := by
  obtain ⟨-, -, hsy⟩ := convert_ok_inv freq b d w m q y p sy h
  rw [hsy]
  rw [div_eq_zero_iff]
  constructor
  · rintro (h0 | h0)
    · exact_mod_cast h0
    · exact absurd h0 (ne_of_gt (unitsPerYear_pos _))
  · intro h0
    left
    exact_mod_cast h0

/-! ## Claims C3 and C7: frequency/period conversion -/

/-- C3. Frequency/period conversion: for every supported frequency and
non-negative duration, `convert_to_periods` sums the units into a
fractional-year total with the constants 251.67 bdays/year, 365.25
days/year, 52 weeks/year, 12 months/year and 4 quarters/year, computes the
step count by multiplying the total by the target frequency's
units-per-year constant and rounding to the nearest integer, and returns
the years value recomputed as steps divided by that constant rather than
the nominal total; in particular 7 quarters at year frequency yields
(steps = 2, years = 2), not years = 1.75. -/
theorem claim_C3_convert_to_periods (freq : String) (b d w m q y : ℚ)
    (hb : 0 ≤ b) (hd : 0 ≤ d) (hw : 0 ≤ w) (hm' : 0 ≤ m) (hq : 0 ≤ q)
    (hy : 0 ≤ y) (hmem : pyLower freq ∈ validFreqStrings) :
    convert_to_periods freq b d w m q y =
      .ok (pyround (unitsPerYear (pyLower freq) * totalYears b d w m q y),
        (pyround (unitsPerYear (pyLower freq) * totalYears b d w m q y) : ℚ)
          / unitsPerYear (pyLower freq)) ∧
    totalYears b d w m q y =
      b / BDAYS_PER_YEAR + d / DAYS_PER_YEAR + w / WEEKS_PER_YEAR
        + m / MONTHS_PER_YEAR + q / QUARTERS_PER_YEAR + y ∧
    convert_to_periods "years" 0 0 0 0 7 0 = .ok (2, 2) := by
  refine ⟨convert_eq_of_mem freq hmem b d w m q y, rfl, ?_⟩
  rw [convert_eq_of_mem "years" (by decide) 0 0 0 0 7 0]
  have hp : pyLower "years" = "years" := by decide
  rw [hp]
  simp only [unitsPerYear, totalYears, pyround, String.reduceEq, reduceIte,
    or_self, or_false, false_or, or_true, true_or]
  norm_num [BDAYS_PER_YEAR, DAYS_PER_YEAR, WEEKS_PER_YEAR, MONTHS_PER_YEAR,
    QUARTERS_PER_YEAR]

/-- Witness for C3 at a concrete input: 7 quarters at (upper-case) year
frequency realize 2 steps of 2 years, and 7 quarters at quarter frequency
realize 7 steps of 7/4 years. -/
theorem claim_C3_convert_to_periods_witness :
    convert_to_periods "Y" 0 0 0 0 7 0 = .ok (2, 2) ∧
    convert_to_periods "Q" 0 0 0 0 7 0 = .ok (7, 7/4) := by
  have h1 := claim_C3_convert_to_periods "Y" 0 0 0 0 7 0 (by norm_num)
    (by norm_num) (by norm_num) (by norm_num) (by norm_num) (by norm_num)
    (by decide)
  have h2 := claim_C3_convert_to_periods "Q" 0 0 0 0 7 0 (by norm_num)
    (by norm_num) (by norm_num) (by norm_num) (by norm_num) (by norm_num)
    (by decide)
  have hy : pyLower "Y" = "y" := by decide
  have hq : pyLower "Q" = "q" := by decide
  rw [hy] at h1
  rw [hq] at h2
  constructor
  · rw [h1.1]
    simp only [unitsPerYear, totalYears, pyround, String.reduceEq, reduceIte,
      or_self, or_false, false_or, or_true, true_or]
    norm_num [BDAYS_PER_YEAR, DAYS_PER_YEAR, WEEKS_PER_YEAR, MONTHS_PER_YEAR,
      QUARTERS_PER_YEAR]
  · rw [h2.1]
    simp only [unitsPerYear, totalYears, pyround, String.reduceEq, reduceIte,
      or_self, or_false, false_or, or_true, true_or]
    norm_num [BDAYS_PER_YEAR, DAYS_PER_YEAR, WEEKS_PER_YEAR, MONTHS_PER_YEAR,
      QUARTERS_PER_YEAR]

/-- C7. Frequency validation: `convert_to_periods` accepts exactly the
strings of the six frequency classes (case-insensitively), and every other
frequency string makes it fail immediately with the `ValueError` carrying
the unsupported-frequency message (the spec's `InvalidArgument` kind) — no
silent coercion and no default. -/
theorem claim_C7_convert_to_periods_validation (freq : String) (b d w m q y : ℚ) :
    ((∃ r, convert_to_periods freq b d w m q y = .ok r) ↔
      pyLower freq ∈ validFreqStrings) ∧
    (pyLower freq ∉ validFreqStrings →
      convert_to_periods freq b d w m q y =
        .error (.valueError ("Unsupported arg freq=" ++ freq))) := by
  constructor
  · constructor
    · rintro ⟨r, hr⟩
      by_contra hmem
      rw [convert_error_of_not_mem freq hmem] at hr
      exact absurd hr (by simp)
    · intro hmem
      exact ⟨_, convert_eq_of_mem freq hmem b d w m q y⟩
  · intro hmem
    exact convert_error_of_not_mem freq hmem b d w m q y

/-- Witness for C7 at concrete inputs: 'ttm' (quarter class) is accepted,
'fortnights' is rejected with the `ValueError`. -/
theorem claim_C7_convert_to_periods_validation_witness :
    (∃ r, convert_to_periods "ttm" 0 0 0 0 0 1 = .ok r) ∧
    convert_to_periods "fortnights" 0 0 0 0 0 1 =
      .error (.valueError "Unsupported arg freq=fortnights") := by
  constructor
  · exact (claim_C7_convert_to_periods_validation "ttm" 0 0 0 0 0 1).1.mpr
      (by decide)
  · exact (claim_C7_convert_to_periods_validation "fortnights" 0 0 0 0 0 1).2
      (by decide)

/-! ## Claim C10: unguarded annualization division -/

/-- C10. For every frequency and every duration whose step count rounds to
zero, calling `rel_change` with `annualized = true` raises
`ZeroDivisionError` from evaluating `1.0 / shifted_years` with
`shifted_years = 0`, instead of propagating a data-level non-numeric
result — for every input frame, every power function and either direction,
so the failure happens in the annualization step, not in the data. -/
theorem claim_C10_rel_change_zero_division (powf : ℚ → ℚ → ℚ) (df : Frame Val)
    (freq : String) (future : Bool) (b d w m q y : ℚ) (sy : ℚ)
    (h : convert_to_periods freq b d w m q y = .ok (0, sy)) :
    rel_change powf df freq future b d w m q y true =
      .error .zeroDivisionError := by
  have hsy : sy = 0 := (convert_sy_eq_zero_iff freq b d w m q y 0 sy h).mpr rfl
  unfold rel_change
  rw [h, hsy]
  simp [pydiv, exceptBind_ok, exceptMap_error]

/-- Witness for C10 at a concrete input: a duration of 1 trading-day at
year frequency rounds to 0 steps, and the annualized change of a
one-point series raises `ZeroDivisionError`. -/
theorem claim_C10_rel_change_zero_division_witness :
    rel_change (fun x _ => x) (.single [some 1]) "y" false 1 0 0 0 0 0 true =
      .error .zeroDivisionError := by
  apply claim_C10_rel_change_zero_division (fun x _ => x) (.single [some 1])
    "y" false 1 0 0 0 0 0 (0 : ℚ)
  rw [convert_eq_of_mem "y" (by decide) 1 0 0 0 0 0]
  have hp : pyLower "y" = "y" := by decide
  rw [hp]
  simp only [unitsPerYear, totalYears, pyround, String.reduceEq, reduceIte,
    or_self, or_false, false_or, or_true, true_or]
  norm_num [BDAYS_PER_YEAR, DAYS_PER_YEAR, WEEKS_PER_YEAR, MONTHS_PER_YEAR,
    QUARTERS_PER_YEAR]

/-! ## Claim C8: window-bound validation in the mean-log calculator -/

/-- C8. Window-bound validation: whenever the two durations of
`mean_log_change` convert to step counts with `min_periods ≥ max_periods`
(including nominally different durations that round to equal step counts),
the function fails at its boundary with the failing
`assert min_periods < max_periods` (the `AssertionError` that realizes the
spec's `InvalidArgument` kind for this check) — for every input frame,
every log function, direction and annualization flag, so the failure
precedes any series computation. -/
theorem claim_C8_mean_log_change_bounds (logf : ℚ → ℚ) (df : Frame Val)
    (freq : String) (future : Bool)
    (mb md mw mm mq my xb xd xw xm xq xy : ℚ) (annualized : Bool)
    (minp maxp : ℤ) (msy xsy : ℚ)
    (hmin : convert_to_periods freq mb md mw mm mq my = .ok (minp, msy))
    (hmax : convert_to_periods freq xb xd xw xm xq xy = .ok (maxp, xsy))
    (hge : maxp ≤ minp) :
    mean_log_change logf df freq future mb md mw mm mq my xb xd xw xm xq xy
      annualized = .error .assertionError := by
  unfold mean_log_change
  rw [hmin, hmax]
  simp [exceptBind_ok, not_lt.mpr hge]

/-- Witness for C8 at a concrete input: a minimum duration of 1 quarter and
a nominally different maximum duration of 3 months both round to 1 step at
quarter frequency, so the calculator fails with the assertion. -/
theorem claim_C8_mean_log_change_bounds_witness :
    mean_log_change (fun x => x) (.single [some 1, some 2]) "q" true
      0 0 0 0 1 0 0 0 0 3 0 0 false = .error .assertionError := by
  have hmin : convert_to_periods "q" 0 0 0 0 1 0 = .ok (1, 1/4) := by
    rw [convert_eq_of_mem "q" (by decide) 0 0 0 0 1 0]
    have hp : pyLower "q" = "q" := by decide
    rw [hp]
    simp only [unitsPerYear, totalYears, pyround, String.reduceEq, reduceIte,
      or_self, or_false, false_or, or_true, true_or]
    norm_num [BDAYS_PER_YEAR, DAYS_PER_YEAR, WEEKS_PER_YEAR, MONTHS_PER_YEAR,
      QUARTERS_PER_YEAR]
  have hmax : convert_to_periods "q" 0 0 0 3 0 0 = .ok (1, 1/4) := by
    rw [convert_eq_of_mem "q" (by decide) 0 0 0 3 0 0]
    have hp : pyLower "q" = "q" := by decide
    rw [hp]
    simp only [unitsPerYear, totalYears, pyround, String.reduceEq, reduceIte,
      or_self, or_false, false_or, or_true, true_or]
    norm_num [BDAYS_PER_YEAR, DAYS_PER_YEAR, WEEKS_PER_YEAR, MONTHS_PER_YEAR,
      QUARTERS_PER_YEAR]
  exact claim_C8_mean_log_change_bounds (fun x => x) (.single [some 1, some 2])
    "q" true 0 0 0 0 1 0 0 0 0 3 0 0 false 1 1 (1/4) (1/4) hmin hmax le_rfl

/-! ## Lemmas about the panel-apply primitive -/

lemma entityRows_append {β : Type} (a b : List (Entity × β)) (k : Entity) :
    entityRows (a ++ b) k = entityRows a k ++ entityRows b k := by
  simp [entityRows, List.filter_append]

lemma entityRows_map_tag {β : Type} (q k : Entity) (xs : List β) :
    entityRows (xs.map fun b => (q, b)) k = if q = k then xs else [] := by
  by_cases h : q = k
  · subst h
    simp [entityRows, List.filter_map, Function.comp]
  · simp [entityRows, List.filter_map, Function.comp, h]

lemma entityRows_flatMap_of_not_mem {β : Type} (keys : List Entity)
    (g : Entity → List β) (k : Entity) (hk : k ∉ keys) :
    entityRows (keys.flatMap fun q => (g q).map fun b => (q, b)) k = [] := by
  induction keys with
  | nil => simp [entityRows]
  | cons a as ih =>
    simp only [List.flatMap_cons]
    rw [entityRows_append, entityRows_map_tag]
    have ha : ¬ a = k := fun h => hk (h ▸ List.mem_cons_self a as)
    simp only [ha, if_false, List.nil_append]
    exact ih fun h => hk (List.mem_cons_of_mem _ h)

lemma entityRows_flatMap_of_mem {β : Type} (keys : List Entity)
    (g : Entity → List β) (k : Entity) (hnd : keys.Nodup) (hk : k ∈ keys) :
    entityRows (keys.flatMap fun q => (g q).map fun b => (q, b)) k = g k := by
  induction keys with
  | nil => cases hk
  | cons a as ih =>
    simp only [List.flatMap_cons]
    rw [entityRows_append, entityRows_map_tag]
    rcases List.mem_cons.mp hk with h | h
    · subst h
      simp only [if_pos rfl]
      rw [entityRows_flatMap_of_not_mem as g k (List.nodup_cons.mp hnd).1]
      simp
    · have hna : ¬ a = k := by
        rintro rfl
        exact (List.nodup_cons.mp hnd).1 h
      simp only [hna, if_false, List.nil_append]
      exact ih (List.nodup_cons.mp hnd).2 h

lemma sortedKeys_nodup {β : Type} (rows : List (Entity × β)) :
    (sortedKeys rows).Nodup :=
  ((List.perm_insertionSort _ _).nodup_iff).mpr (List.nodup_dedup _)

lemma mem_sortedKeys {β : Type} (rows : List (Entity × β)) (k : Entity) :
    k ∈ sortedKeys rows ↔ k ∈ rows.map Prod.fst := by
  unfold sortedKeys
  rw [(List.perm_insertionSort _ _).mem_iff, List.mem_dedup]

lemma entityRows_applyPanel {α β : Type} (f : List α → List β)
    (rows : List (Entity × α)) (k : Entity) (hk : k ∈ rows.map Prod.fst) :
    entityRows (applyPanel f rows) k = f (entityRows rows k) := by
  unfold applyPanel
  exact entityRows_flatMap_of_mem _ _ _ (sortedKeys_nodup rows)
    ((mem_sortedKeys rows k).mpr hk)

/-! ## Claim C1: entity isolation of the panel-apply primitive -/

/-- C1. Entity isolation: for every panel with at least two entities and
every per-entity operation `f` routed through the panel-apply primitive
(as `rel_change`, `mean_log_change`, `resample` and the fill step of
`reindex` are), the sub-series produced for an entity by running the
operation on the full panel equals the result of running the same
operation on that entity's series alone (which is what `apply` does on a
single-entity frame); in particular `f` only ever receives the entity's
own rows. -/
theorem claim_C1_entity_isolation {α β : Type} (f : List α → List β)
    (rows : List (Entity × α)) (k : Entity)
    (h2 : 2 ≤ (sortedKeys rows).length) (hk : k ∈ rows.map Prod.fst) :
    entityRows (applyPanel f rows) k = f (entityRows rows k) ∧
    applyF f (.multi rows) = .multi (applyPanel f rows) ∧
    applyF f (.single (entityRows rows k)) = .single (f (entityRows rows k)) :=
  ⟨entityRows_applyPanel f rows k hk, rfl, rfl⟩

/-- Witness for C1 at a concrete input: a two-entity panel where running
the doubling operation on the full panel gives entity "A" exactly the
rows obtained from its own sub-series alone. -/
theorem claim_C1_entity_isolation_witness :
    entityRows (applyPanel (fun l => l.map (2 * ·))
      [("A", 1), ("B", 2), ("A", 3)]) "A" = [2, 6] := by
  have h2 : 2 ≤ (sortedKeys [("A", (1 : ℕ)), ("B", 2), ("A", 3)]).length := by
    unfold sortedKeys
    rw [(List.perm_insertionSort _ _).length_eq]
    decide
  have h := claim_C1_entity_isolation (fun l => l.map (2 * ·))
    [("A", (1 : ℕ)), ("B", 2), ("A", 3)] "A" h2 (by decide)
  rw [h.1]
  decide

/-! ## Claim C6: free cash flow -/

/-- C6. Free cash flow: for every cash-flow frame (here, any assignment of
columns to the names), `free_cash_flow` returns, row by row, the operating
cash flow field plus the capital expenditure field — addition, because the
capital expenditure field is stored signed — with a non-numeric cell in
either input treated as zero, named as the Free Cash Flow column and as
long as its inputs. -/
theorem claim_C6_free_cash_flow (df : String → List Val)
    (hlen : (df NET_CASH_OPS).length = (df CAPEX).length)
    (t : ℕ) (ht : t < (df NET_CASH_OPS).length) :
    (free_cash_flow df).1 = FCF ∧
    (free_cash_flow df).2.getD t none =
      some (((df NET_CASH_OPS).getD t none).getD 0
        + ((df CAPEX).getD t none).getD 0) ∧
    (free_cash_flow df).2.length = (df NET_CASH_OPS).length := by
  refine ⟨rfl, ?_, ?_⟩
  · have ht2 : t < (df CAPEX).length := hlen ▸ ht
    have ha : (df NET_CASH_OPS)[t]? = some ((df NET_CASH_OPS).get ⟨t, ht⟩) :=
      List.getElem?_eq_getElem ht
    have hb : (df CAPEX)[t]? = some ((df CAPEX).get ⟨t, ht2⟩) :=
      List.getElem?_eq_getElem ht2
    simp only [free_cash_flow, fillna0, List.getD_eq_getElem?_getD,
      List.getElem?_zipWith, List.getElem?_map, ha, hb, List.get_eq_getElem,
      Option.map_some', vadd]
    rfl
  · simp [free_cash_flow, fillna0, hlen]

/-- Witness for C6 at a concrete input: operating cash flow 1000 and
capital expenditure stored as -200 yield free cash flow 800, under the
Free Cash Flow output name. -/
theorem claim_C6_free_cash_flow_witness :
    (free_cash_flow fun c =>
        if c = NET_CASH_OPS then [some 1000]
        else if c = CAPEX then [some (-200)] else []).2.getD 0 none =
      some 800 ∧
    (free_cash_flow fun c =>
        if c = NET_CASH_OPS then [some 1000]
        else if c = CAPEX then [some (-200)] else []).1 = FCF := by
  have h := claim_C6_free_cash_flow
    (fun c => if c = NET_CASH_OPS then [some 1000]
      else if c = CAPEX then [some (-200)] else [])
    (by simp [NET_CASH_OPS, CAPEX]) 0 (by simp [NET_CASH_OPS, CAPEX])
  refine ⟨?_, h.1⟩
  rw [h.2.1]
  simp only [NET_CASH_OPS, CAPEX, String.reduceEq, reduceIte]
  norm_num

/-! ## Lemmas about positional series operations -/

lemma length_shift (p : ℤ) (s : List Val) : (shift p s).length = s.length := by
  unfold shift
  rw [List.length_map, List.length_range]

lemma getD_shift (p : ℤ) (s : List Val) (t : ℕ) (ht : t < s.length) :
    (shift p s).getD t none =
      if 0 ≤ (t : ℤ) - p ∧ (t : ℤ) - p < (s.length : ℤ) then
        s.getD ((t : ℤ) - p).toNat none
      else none := by
  unfold shift
  rw [List.getD_eq_getElem?_getD, List.getElem?_map, List.getElem?_range ht,
    Option.map_some', Option.getD_some]

lemma getD_of_length_le (l : List Val) (t : ℕ) (h : l.length ≤ t) :
    l.getD t none = none := by
  rw [List.getD_eq_getElem?_getD, List.getElem?_eq_none h]
  rfl

lemma getD_zipWith_of_lt (f : Val → Val → Val) (a b : List Val) (t : ℕ)
    (ha : t < a.length) (hb : t < b.length) :
    (List.zipWith f a b).getD t none = f (a.getD t none) (b.getD t none) := by
  simp [List.getD_eq_getElem?_getD, List.getElem?_zipWith,
    List.getElem?_eq_getElem ha, List.getElem?_eq_getElem hb]

lemma getD_map_pointwise (g : Val → Val) (hg : g none = none) (s : List Val)
    (t : ℕ) : (s.map g).getD t none = g (s.getD t none) := by
  by_cases ht : t < s.length
  · simp [List.getD_eq_getElem?_getD, List.getElem?_eq_getElem ht]
  · rw [getD_of_length_le _ t (by simpa using le_of_not_lt ht),
      getD_of_length_le _ t (le_of_not_lt ht), hg]

lemma rel_change_grp_length (p : ℤ) (future : Bool) (s : List Val) :
    (rel_change_grp p future s).length = s.length := by
  unfold rel_change_grp
  cases future <;> simp [length_shift, List.length_zipWith]

/-! ## Claim C2: point-change semantics of rel_change -/

/-- C2. Point-change semantics: for every series whose duration arguments
convert to `p ≥ 0` steps and fractional-year value `sy`, `rel_change`
returns a same-length series where, with `future = false`,
`result[t] = series[t] / series[t-p] - 1` and the first `p` rows are
non-numeric placeholders, and with `future = true`,
`result[t] = series[t+p] / series[t] - 1` and the last `p` rows are
non-numeric placeholders — never an error; with `annualized = true` the
`- 1` finalization is replaced by `powf x (1 / sy) - 1` applied to the
same ratio. -/
theorem claim_C2_rel_change (powf : ℚ → ℚ → ℚ) (s : List Val) (freq : String)
    (future : Bool) (b d w m q y : ℚ) (annualized : Bool) (p : ℤ) (sy : ℚ)
    (hconv : convert_to_periods freq b d w m q y = .ok (p, sy))
    (hp : 0 ≤ p) (hsy : annualized = true → sy ≠ 0) :
    ∃ r : List Val,
      rel_change powf (.single s) freq future b d w m q y annualized =
        .ok (.single r) ∧
      r.length = s.length ∧
      ∀ t : ℕ, t < s.length →
        (future = false → (t : ℤ) < p → r.getD t none = none) ∧
        (future = true → (s.length : ℤ) - p ≤ (t : ℤ) → r.getD t none = none) ∧
        (∀ a a' : ℚ, a' ≠ 0 → future = false → p ≤ (t : ℤ) →
          s.getD t none = some a → s.getD ((t : ℤ) - p).toNat none = some a' →
          r.getD t none =
            some (if annualized then powf (a / a') (1 / sy) - 1
              else a / a' - 1)) ∧
        (∀ a a' : ℚ, a' ≠ 0 → future = true → (t : ℤ) + p < (s.length : ℤ) →
          s.getD ((t : ℤ) + p).toNat none = some a → s.getD t none = some a' →
          r.getD t none =
            some (if annualized then powf (a / a') (1 / sy) - 1
              else a / a' - 1)) := by
  classical
  set fin : ℚ → ℚ := fun x =>
    if annualized then powf x (1 / sy) - 1 else x - 1 with hfin
  refine ⟨(rel_change_grp p future s).map (vmap fin), ?_, ?_, ?_⟩
  · unfold rel_change
    rw [hconv, exceptBind_ok]
    cases hann : annualized with
    | false =>
      simp only [Bool.false_eq_true, if_false]
      have : fin = fun x => x - 1 := by
        funext x
        simp [hfin, hann]
      rw [this]
      rfl
    | true =>
      simp only [if_true]
      have hz : pydiv 1 sy = .ok (1 / sy) := by
        unfold pydiv
        rw [if_neg (hsy hann)]
      rw [hz, exceptBind_ok]
      have : fin = fun x => powf x (1 / sy) - 1 := by
        funext x
        simp [hfin, hann]
      rw [this]
      rfl
  · simp [rel_change_grp_length]
  · intro t ht
    have hmap : ∀ u : ℕ,
        ((rel_change_grp p future s).map (vmap fin)).getD u none =
          vmap fin ((rel_change_grp p future s).getD u none) := fun u =>
      getD_map_pointwise (vmap fin) rfl _ u
    have hzip : ∀ u : ℕ, u < s.length →
        (List.zipWith vdiv s (shift p s)).getD u none =
          vdiv (s.getD u none) ((shift p s).getD u none) := fun u hu =>
      getD_zipWith_of_lt vdiv s (shift p s) u hu (by rwa [length_shift])
    have hzlen : (List.zipWith vdiv s (shift p s)).length = s.length := by
      simp [List.length_zipWith, length_shift]
    refine ⟨?_, ?_, ?_, ?_⟩
    · rintro rfl htp
      rw [hmap t]
      unfold rel_change_grp
      simp only [Bool.false_eq_true, if_false]
      rw [hzip t ht, getD_shift p s t ht, if_neg (by omega)]
      cases s.getD t none <;> rfl
    · rintro rfl htp
      rw [hmap t]
      unfold rel_change_grp
      simp only [if_true]
      rw [getD_shift (-p) _ t (by rwa [hzlen]), if_neg (by rw [hzlen]; omega)]
      rfl
    · rintro a a' ha' rfl htp hsa hsa'
      rw [hmap t]
      unfold rel_change_grp
      simp only [Bool.false_eq_true, if_false]
      rw [hzip t ht, getD_shift p s t ht, if_pos (by omega), hsa, hsa']
      simp [vdiv, if_neg ha', vmap, hfin, one_div]
    · rintro a a' ha' rfl htp hsa hsa'
      rw [hmap t]
      unfold rel_change_grp
      simp only [if_true]
      have htp' : ((t : ℤ) + p).toNat < s.length := by omega
      rw [getD_shift (-p) _ t (by rwa [hzlen]),
        if_pos (by rw [hzlen]; constructor <;> omega)]
      have hidx : ((t : ℤ) - -p).toNat = ((t : ℤ) + p).toNat := by omega
      rw [hidx, hzip _ htp', getD_shift p s _ htp', if_pos (by omega), hsa]
      have hidx2 : ((((t : ℤ) + p).toNat : ℤ) - p).toNat = t := by omega
      rw [hidx2, hsa']
      simp [vdiv, if_neg ha', vmap, hfin, one_div]

/-- Witness for C2 at a concrete input: the past 1-trading-day relative
change of the series [100, 110, 121] is a placeholder at the first row and
10 percent at the second and third rows. -/
theorem claim_C2_rel_change_witness :
    ∃ r : List Val,
      rel_change (fun x _ => x) (.single [some 100, some 110, some 121]) "b"
        false 1 0 0 0 0 0 false = .ok (.single r) ∧
      r.getD 0 none = none ∧ r.getD 1 none = some (1 / 10) ∧
      r.getD 2 none = some (1 / 10) := by
  have hconv : convert_to_periods "b" 1 0 0 0 0 0 =
      .ok (1, 1 / BDAYS_PER_YEAR) := by
    rw [convert_eq_of_mem "b" (by decide) 1 0 0 0 0 0]
    have hp : pyLower "b" = "b" := by decide
    rw [hp]
    simp only [unitsPerYear, totalYears, pyround, String.reduceEq, reduceIte,
      or_self, or_false, false_or, or_true, true_or]
    norm_num [BDAYS_PER_YEAR]
  obtain ⟨r, hr, hlen, hpt⟩ := claim_C2_rel_change (fun x _ => x)
    [some 100, some 110, some 121] "b" false 1 0 0 0 0 0 false 1
    (1 / BDAYS_PER_YEAR) hconv (by norm_num) (by simp)
  refine ⟨r, hr, ?_, ?_, ?_⟩
  · exact ((hpt 0 (by norm_num)).1 rfl (by norm_num))
  · have h := ((hpt 1 (by norm_num)).2.2.1 110 100 (by norm_num) rfl
      (by norm_num) (by decide) (by decide))
    rw [h]
    norm_num
  · have h := ((hpt 2 (by norm_num)).2.2.1 121 110 (by norm_num) rfl
      (by norm_num) (by decide) (by decide))
    rw [h]
    norm_num

/-! ## Lemmas about the rolling dot-product -/

lemma dotExp_eq_sum (g : ℕ → ℚ) : ∀ (n : ℕ) (w : List ℚ) (L : List Val) (a : ℕ),
    w.length = n → a + n ≤ L.length →
    (∀ i, i < L.length → L.getD i none = some (g i)) →
    dotExp w ((L.drop a).take n) =
      some (∑ j ∈ Finset.range n, g (a + j) * w.getD j 0) := by
  intro n
  induction n with
  | zero =>
    intro w L a _ _ _
    simp [dotExp]
  | succ n ih =>
    intro w L a hw hl hL
    obtain ⟨c, w', rfl⟩ : ∃ c w', w = c :: w' := by
      cases w with
      | nil => simp at hw
      | cons c w' => exact ⟨c, w', rfl⟩
    have ha : a < L.length := by omega
    have hdrop : L.drop a = L.getD a none :: L.drop (a + 1) := by
      rw [List.getD_eq_getElem?_getD, List.getElem?_eq_getElem ha]
      exact List.drop_eq_getElem_cons ha
    rw [hdrop, List.take_succ_cons]
    have hrest := ih w' L (a + 1) (by simpa using hw) (by omega) hL
    unfold dotExp at hrest ⊢
    rw [List.zipWith_cons_cons, List.foldr_cons, hrest, hL a ha]
    simp only [vmap, Option.map_some', vadd]
    congr 1
    rw [Finset.sum_range_succ']
    have hc : ∀ j, (c :: w').getD (j + 1) 0 = w'.getD j 0 := fun j => rfl
    have hsum : ∑ j ∈ Finset.range n, g (a + (j + 1)) * (c :: w').getD (j + 1) 0
        = ∑ j ∈ Finset.range n, g (a + 1 + j) * w'.getD j 0 :=
      Finset.sum_congr rfl fun j _ => by
        rw [hc j, show a + (j + 1) = a + 1 + j by omega]
    rw [hsum, List.getD_cons_zero, add_comm]
    norm_num

lemma length_rollingDot (n : ℕ) (w : List ℚ) (s : List Val) :
    (rollingDot n w s).length = s.length := by
  unfold rollingDot
  rw [List.length_map, List.length_range]

lemma getD_rollingDot (n : ℕ) (w : List ℚ) (s : List Val) (t : ℕ)
    (ht : t < s.length) :
    (rollingDot n w s).getD t none =
      if n ≤ t + 1 then dotExp w ((s.drop (t + 1 - n)).take n) else none := by
  unfold rollingDot
  rw [List.getD_eq_getElem?_getD, List.getElem?_map, List.getElem?_range ht,
    Option.map_some', Option.getD_some]

lemma vlog_getD (logf : ℚ → ℚ) (s : List Val) (f : ℕ → ℚ)
    (hs : ∀ i, i < s.length → s.getD i none = some (f i) ∧ 0 < f i)
    (i : ℕ) (hi : i < s.length) :
    (s.map (vlog logf)).getD i none = some (logf (f i)) := by
  rw [getD_map_pointwise (vlog logf) rfl, (hs i hi).1]
  simp [vlog, not_le.mpr (hs i hi).2]

lemma mean_log_change_grp_length (future : Bool) (minp maxp : ℤ)
    (expv : List ℚ) (L : List Val) :
    (mean_log_change_grp future minp maxp expv L).length = L.length := by
  unfold mean_log_change_grp
  cases future <;>
    simp [List.length_zipWith, length_shift, length_rollingDot]

/-! ## Claim C4: the mean-log window algorithm -/

/-- C4. Mean-log window algorithm: for every positive-valued series and
durations converting to `min_p < max_p` with `n = max_p - min_p`, on the
domain where the claimed exponents are finite — `1 ≤ min_p`, and a window
of at least two periods when annualized, since at `min_p = 0` or a
one-period annualized window numpy's divisions by zero turn the program's
exponents into `inf`/`nan` and poison the whole output —
`mean_log_change` builds the exponent vector `mlExponent` of length `n`
(`1/shifted_years[i]` with linear interpolation of the two realized
fractional-year values when annualized, otherwise `1/(min_p+i)`), reverses
it when `future = false`, and returns per entity
`(w[t] - log(series[t]) * sum(exponents)) / n` for the future direction
and `(log(series[t]) * sum(exponents) - w[t]) / n` for the past direction,
where `w[t]` is the rolling length-`n` dot-product of `log(series)`
against the exponent vector, shifted by `-max_p` (future) or `+min_p`
(past): explicitly, the dot product runs over the log-values at positions
`t+min_p+1 .. t+max_p` (future) and `t-max_p+1 .. t-min_p` (past). -/
theorem claim_C4_mean_log_change (logf : ℚ → ℚ) (s : List Val) (freq : String)
    (future : Bool)
    (mb md mw mm mq my xb xd xw xm xq xy : ℚ) (annualized : Bool)
    (minp maxp : ℤ) (msy xsy : ℚ) (f : ℕ → ℚ)
    (hmin : convert_to_periods freq mb md mw mm mq my = .ok (minp, msy))
    (hmax : convert_to_periods freq xb xd xw xm xq xy = .ok (maxp, xsy))
    (h0 : 1 ≤ minp) (hlt : minp < maxp)
    (hwin : annualized = true → minp + 2 ≤ maxp)
    (hs : ∀ i, i < s.length → s.getD i none = some (f i) ∧ 0 < f i) :
    ∃ r : List Val,
      mean_log_change logf (.single s) freq future mb md mw mm mq my
          xb xd xw xm xq xy annualized = .ok (.single r) ∧
      r.length = s.length ∧
      (mlExponent annualized minp maxp msy xsy).length =
        (maxp - minp).toNat ∧
      ∀ t : ℕ, t < s.length →
        (future = true → (t : ℤ) + maxp < (s.length : ℤ) →
          r.getD t none =
            some (((∑ j ∈ Finset.range (maxp - minp).toNat,
                logf (f (t + minp.toNat + 1 + j)) *
                  (mlExponent annualized minp maxp msy xsy).getD j 0) -
              logf (f t) * (mlExponent annualized minp maxp msy xsy).sum) /
                ((maxp - minp).toNat : ℚ))) ∧
        (future = false → (maxp : ℤ) ≤ (t : ℤ) + 1 →
          r.getD t none =
            some ((logf (f t) *
                (mlExponent annualized minp maxp msy xsy).reverse.sum -
              ∑ j ∈ Finset.range (maxp - minp).toNat,
                logf (f (t + 1 - maxp.toNat + j)) *
                  (mlExponent annualized minp maxp msy xsy).reverse.getD j 0) /
                ((maxp - minp).toNat : ℚ))) := by
  classical
  set n : ℕ := (maxp - minp).toNat with hn
  set exponent0 : List ℚ := mlExponent annualized minp maxp msy xsy with hexp0
  set expv : List ℚ := if future then exponent0 else exponent0.reverse
    with hexpv
  set L : List Val := s.map (vlog logf) with hL
  have hLlen : L.length = s.length := by simp [hL]
  have hLget : ∀ i, i < L.length → L.getD i none = some (logf (f i)) := by
    intro i hi
    exact vlog_getD logf s f hs i (by omega)
  have hexplen : exponent0.length = n := by
    rw [hexp0, hn]
    unfold mlExponent
    cases annualized <;> simp
  have hexpvlen : expv.length = n := by
    rw [hexpv]
    cases future <;> simp [hexplen]
  refine ⟨mean_log_change_grp future minp maxp expv L, ?_, ?_, hexplen, ?_⟩
  · unfold mean_log_change
    rw [hmin, hmax, exceptBind_ok, exceptBind_ok, if_pos hlt]
    rfl
  · rw [mean_log_change_grp_length, hLlen]
  · intro t ht
    constructor
    · rintro rfl htmax
      unfold mean_log_change_grp
      simp only [if_true]
      have hzlen : (rollingDot n expv L).length = L.length :=
        length_rollingDot n expv L
      have htL : t < L.length := by omega
      rw [getD_map_pointwise _ rfl,
        getD_zipWith_of_lt _ _ _ t (by rw [length_shift, hzlen]; omega)
          (by rw [List.length_map]; omega),
        getD_shift (-maxp) _ t (by rw [hzlen]; omega),
        if_pos (by rw [hzlen, hLlen]; omega)]
      have hu : (((t : ℤ) - -maxp).toNat) = t + maxp.toNat := by omega
      rw [hu, getD_rollingDot n expv L (t + maxp.toNat) (by omega),
        if_pos (by omega)]
      have ha : t + maxp.toNat + 1 - n = t + minp.toNat + 1 := by omega
      rw [ha, dotExp_eq_sum (fun i => logf (f i)) n expv L (t + minp.toNat + 1)
        hexpvlen (by omega) hLget,
        getD_map_pointwise _ rfl, hLget t htL]
      simp only [vmap, Option.map_some', vsub]
      have hsum : expv.sum = exponent0.sum := by rw [hexpv, if_pos rfl]
      have hget : ∀ j, expv.getD j 0 = exponent0.getD j 0 := by
        rw [hexpv, if_pos rfl]
        exact fun _ => rfl
      rw [hsum]
      congr 2
    · rintro rfl htmax
      unfold mean_log_change_grp
      simp only [Bool.false_eq_true, if_false]
      have hzlen : (rollingDot n expv L).length = L.length :=
        length_rollingDot n expv L
      have htL : t < L.length := by omega
      rw [getD_map_pointwise _ rfl,
        getD_zipWith_of_lt _ _ _ t (by rw [List.length_map]; omega)
          (by rw [length_shift, hzlen]; omega),
        getD_shift minp _ t (by rw [hzlen]; omega),
        if_pos (by rw [hzlen, hLlen]; omega)]
      have hu : (((t : ℤ) - minp).toNat) = t - minp.toNat := by omega
      rw [hu, getD_rollingDot n expv L (t - minp.toNat) (by omega),
        if_pos (by omega)]
      have ha : t - minp.toNat + 1 - n = t + 1 - maxp.toNat := by omega
      rw [ha, dotExp_eq_sum (fun i => logf (f i)) n expv L (t + 1 - maxp.toNat)
        hexpvlen (by omega) hLget,
        getD_map_pointwise _ rfl, hLget t htL]
      simp only [vmap, Option.map_some', vsub]
      have hsum : expv.sum = exponent0.reverse.sum := by
        rw [hexpv, if_neg (by simp)]
      have hget : ∀ j, expv.getD j 0 = exponent0.reverse.getD j 0 := by
        rw [hexpv, if_neg (by simp)]
        exact fun _ => rfl
      rw [hsum]
      congr 2

/-- Witness for C4 at a concrete input: the future mean-log change of the
positive series [2, 3, 5, 7] between 1 and 3 quarters at quarter frequency
(window length 2, geometric-mean exponents [1, 1/2], identity in place of
the real logarithm) evaluates at t = 0 to ((5 + 7/2) - 2 * 3/2) / 2 =
11/4. -/
theorem claim_C4_mean_log_change_witness :
    ∃ r : List Val,
      mean_log_change (fun x => x)
          (.single [some 2, some 3, some 5, some 7]) "q" true
          0 0 0 0 1 0 0 0 0 0 3 0 false = .ok (.single r) ∧
      r.getD 0 none = some (11 / 4) := by
  have hq : pyLower "q" = "q" := by decide
  have hmin : convert_to_periods "q" 0 0 0 0 1 0 = .ok (1, 1 / 4) := by
    rw [convert_eq_of_mem "q" (by decide) 0 0 0 0 1 0, hq]
    simp only [unitsPerYear, totalYears, pyround, String.reduceEq, reduceIte,
      or_self, or_false, false_or, or_true, true_or]
    norm_num [BDAYS_PER_YEAR, DAYS_PER_YEAR, WEEKS_PER_YEAR, MONTHS_PER_YEAR,
      QUARTERS_PER_YEAR]
  have hmax : convert_to_periods "q" 0 0 0 0 3 0 = .ok (3, 3 / 4) := by
    rw [convert_eq_of_mem "q" (by decide) 0 0 0 0 3 0, hq]
    simp only [unitsPerYear, totalYears, pyround, String.reduceEq, reduceIte,
      or_self, or_false, false_or, or_true, true_or]
    norm_num [BDAYS_PER_YEAR, DAYS_PER_YEAR, WEEKS_PER_YEAR, MONTHS_PER_YEAR,
      QUARTERS_PER_YEAR]
  have hs : ∀ i, i < ([some 2, some 3, some 5, some 7] : List Val).length →
      ([some 2, some 3, some 5, some 7] : List Val).getD i none =
        some ((fun i : ℕ => if i = 0 then (2 : ℚ) else if i = 1 then 3
          else if i = 2 then 5 else 7) i) ∧
      0 < (fun i : ℕ => if i = 0 then (2 : ℚ) else if i = 1 then 3
          else if i = 2 then 5 else 7) i := by
    intro i hi
    simp only [List.length_cons, List.length_nil] at hi
    interval_cases i <;> exact ⟨rfl, by norm_num⟩
  obtain ⟨r, hr, hlen, hexplen, hpt⟩ := claim_C4_mean_log_change (fun x => x)
    [some 2, some 3, some 5, some 7] "q" true 0 0 0 0 1 0 0 0 0 0 3 0 false
    1 3 (1 / 4) (3 / 4)
    (fun i => if i = 0 then 2 else if i = 1 then 3 else if i = 2 then 5 else 7)
    hmin hmax (by norm_num) (by norm_num) (fun _ => by norm_num) hs
  refine ⟨r, hr, ?_⟩
  have h := (hpt 0 (by norm_num)).1 rfl (by norm_num)
  rw [h]
  have hexp : mlExponent false 1 3 (1 / 4) (3 / 4) = [1, 1 / 2] := by
    unfold mlExponent
    simp only [show ((3 : ℤ) - 1).toNat = 2 from by
      rw [show (3 : ℤ) - 1 = 2 from by norm_num]
      rfl]
    norm_num [List.range_succ]
  rw [hexp]
  have h2 : ((3 : ℤ) - 1).toNat = 2 := by
    rw [show (3 : ℤ) - 1 = 2 from by norm_num]
    rfl
  rw [h2]
  simp only [show ((1 : ℤ)).toNat = 1 from rfl, show ((3 : ℤ)).toNat = 3 from rfl]
  rw [Finset.sum_range_succ, Finset.sum_range_succ, Finset.sum_range_zero]
  norm_num [List.getD_cons_zero, List.getD_cons_succ, List.sum_cons]

/-! ## Lemmas about the fill methods -/

lemma lastSome_concat (l : List Val) (v : Val) :
    lastSome (l ++ [v]) = match v with | some x => some x | none => lastSome l := by
  unfold lastSome
  rw [List.foldl_append]
  cases v <;> rfl

lemma lastSome_eq_none_iff (l : List Val) :
    lastSome l = none ↔ ∀ v ∈ l, v = none := by
  induction l using List.reverseRecOn with
  | nil => simp [lastSome]
  | append_singleton t v ih =>
    rw [lastSome_concat]
    cases v with
    | none =>
      rw [ih]
      constructor
      · intro h v hv
        rcases List.mem_append.mp hv with h1 | h1
        · exact h v h1
        · simpa using h1
      · intro h v hv
        exact h v (List.mem_append_left _ hv)
    | some x =>
      constructor
      · intro h
        simp at h
      · intro h
        have := h (some x) (List.mem_append_right _ (by simp))
        simp at this

lemma firstSome_eq_none_iff (l : List Val) :
    firstSome l = none ↔ ∀ v ∈ l, v = none := by
  unfold firstSome
  cases hf : l.find? Option.isSome with
  | none =>
    rw [List.find?_eq_none] at hf
    simp only [true_iff]
    intro v hv
    have := hf v hv
    cases v with
    | none => rfl
    | some x => simp at this
  | some v =>
    have hmem := List.mem_of_find?_eq_some hf
    have hsome := List.find?_some hf
    show v = none ↔ ∀ v ∈ l, v = none
    constructor
    · intro hv
      rw [hv] at hsome
      simp at hsome
    · intro hall
      have := hall v hmem
      rw [this] at hsome
      simp at hsome

lemma length_ffillVals (l : List Val) : (ffillVals l).length = l.length := by
  unfold ffillVals
  rw [List.length_map, List.length_range]

lemma getD_ffillVals (l : List Val) (i : ℕ) (h : i < l.length) :
    (ffillVals l).getD i none = lastSome (l.take (i + 1)) := by
  unfold ffillVals
  rw [List.getD_eq_getElem?_getD, List.getElem?_map, List.getElem?_range h,
    Option.map_some', Option.getD_some]

lemma length_bfillVals (l : List Val) : (bfillVals l).length = l.length := by
  unfold bfillVals
  rw [List.length_map, List.length_range]

lemma getD_bfillVals (l : List Val) (i : ℕ) (h : i < l.length) :
    (bfillVals l).getD i none = firstSome (l.drop i) := by
  unfold bfillVals
  rw [List.getD_eq_getElem?_getD, List.getElem?_map, List.getElem?_range h,
    Option.map_some', Option.getD_some]

lemma mem_take_eq_none (l : List Val) (i : ℕ)
    (h : ∀ j, j ≤ i → l.getD j none = none) :
    ∀ v ∈ l.take (i + 1), v = none := by
  intro v hv
  obtain ⟨j, hj, hget⟩ := List.getElem_of_mem hv
  have hjlen : j < l.length := lt_of_lt_of_le hj (by simp [List.length_take])
  rw [List.getElem_take] at hget
  have hj2 : j ≤ i := by
    have := hj
    simp only [List.length_take] at this
    omega
  rw [← hget, ← List.getD_eq_getElem l none hjlen]
  exact h j hj2

lemma lastSome_take_of_getD_some (l : List Val) (i : ℕ) (x : ℚ)
    (h : i < l.length) (hx : l.getD i none = some x) :
    lastSome (l.take (i + 1)) = some x := by
  rw [List.take_succ, List.getElem?_eq_getElem h]
  have : l[i] = some x := by
    rw [← List.getD_eq_getElem l none h]
    exact hx
  rw [this]
  simp only [Option.toList_some]
  rw [lastSome_concat]

lemma ffillVals_nonesDown (l : List Val) : nonesDown (ffillVals l) := by
  intro i hi hni j hj
  rw [length_ffillVals] at hi
  have hji : j < l.length := by omega
  rw [getD_ffillVals l i hi] at hni
  rw [getD_ffillVals l j hji]
  rw [lastSome_eq_none_iff] at hni ⊢
  intro v hv
  refine hni v ?_
  have : l.take (j + 1) = (l.take (i + 1)).take (j + 1) := by
    rw [List.take_take]
    congr 1
    omega
  rw [this] at hv
  exact List.take_subset _ _ hv

lemma ffillVals_fixed (l : List Val) (h : nonesDown l) : ffillVals l = l := by
  apply List.ext_getElem (length_ffillVals l)
  intro i hi hli
  rw [← List.getD_eq_getElem _ none, ← List.getD_eq_getElem _ none,
    getD_ffillVals l i hli]
  cases hv : l.getD i none with
  | some x => exact lastSome_take_of_getD_some l i x hli hv
  | none =>
    rw [lastSome_eq_none_iff]
    exact mem_take_eq_none l i (h i hli hv)

lemma mem_drop_eq_none (l : List Val) (i : ℕ)
    (h : ∀ j, i ≤ j → l.getD j none = none) :
    ∀ v ∈ l.drop i, v = none := by
  intro v hv
  obtain ⟨j, hj, hget⟩ := List.getElem_of_mem hv
  rw [List.getElem_drop] at hget
  have hlen : i + j < l.length := by
    have := hj
    simp only [List.length_drop] at this
    omega
  rw [← hget, ← List.getD_eq_getElem l none hlen]
  exact h (i + j) (by omega)

lemma firstSome_drop_of_getD_some (l : List Val) (i : ℕ) (x : ℚ)
    (h : i < l.length) (hx : l.getD i none = some x) :
    firstSome (l.drop i) = some x := by
  have hdrop : l.drop i = l[i] :: l.drop (i + 1) := List.drop_eq_getElem_cons h
  have hxi : l[i] = some x := by
    rw [← List.getD_eq_getElem l none h]
    exact hx
  rw [hdrop, hxi]
  unfold firstSome
  rw [List.find?_cons_of_pos _ (by simp)]

lemma bfillVals_nonesUp (l : List Val) : nonesUp (bfillVals l) := by
  intro i hi hni j hj
  rw [length_bfillVals] at hi
  by_cases hjl : j < l.length
  · rw [getD_bfillVals l i hi] at hni
    rw [getD_bfillVals l j hjl]
    rw [firstSome_eq_none_iff] at hni ⊢
    intro v hv
    refine hni v ?_
    have hdd : l.drop j = (l.drop i).drop (j - i) := by
      rw [List.drop_drop]
      congr 1
      omega
    rw [hdd] at hv
    exact List.drop_subset _ _ hv
  · exact getD_of_length_le _ j (by rw [length_bfillVals]; omega)

lemma bfillVals_fixed (l : List Val) (h : nonesUp l) : bfillVals l = l := by
  apply List.ext_getElem (length_bfillVals l)
  intro i hi hli
  rw [← List.getD_eq_getElem _ none, ← List.getD_eq_getElem _ none,
    getD_bfillVals l i hli]
  cases hv : l.getD i none with
  | some x => exact firstSome_drop_of_getD_some l i x hli hv
  | none =>
    rw [firstSome_eq_none_iff]
    exact mem_drop_eq_none l i (h i hli hv)

lemma length_interpVals (g : DSeries → ℕ → ℚ) (et : Bool) (s : DSeries) :
    (interpVals g et s).length = s.length := by
  unfold interpVals
  rw [List.length_map, List.length_range, List.length_map]

lemma getD_interpVals (g : DSeries → ℕ → ℚ) (et : Bool) (s : DSeries) (i : ℕ)
    (h : i < s.length) :
    (interpVals g et s).getD i none =
      match (s.map Prod.snd).getD i none with
      | some x => some x
      | none =>
        if hasSomeBefore (s.map Prod.snd) i then
          if hasSomeAfter (s.map Prod.snd) i then some (g s i)
          else if et then lastSome ((s.map Prod.snd).take i)
          else none
        else none := by
  unfold interpVals
  rw [List.getD_eq_getElem?_getD, List.getElem?_map,
    List.getElem?_range (by rwa [List.length_map]), Option.map_some',
    Option.getD_some]

lemma hasSomeBefore_eq_false_iff (l : List Val) (i : ℕ) :
    hasSomeBefore l i = false ↔ ∀ v ∈ l.take i, v = none := by
  unfold hasSomeBefore
  rw [List.any_eq_false]
  constructor
  · intro h v hv
    have := h v hv
    cases v with
    | none => rfl
    | some x => simp at this
  · intro h v hv
    rw [h v hv]
    simp

lemma hasSomeAfter_eq_false_iff (l : List Val) (i : ℕ) :
    hasSomeAfter l i = false ↔ ∀ v ∈ l.drop (i + 1), v = none := by
  unfold hasSomeAfter
  rw [List.any_eq_false]
  constructor
  · intro h v hv
    have := h v hv
    cases v with
    | none => rfl
    | some x => simp at this
  · intro h v hv
    rw [h v hv]
    simp

lemma getD_eq_none_of_take_none (l : List Val) (i j : ℕ) (hj : j < i)
    (hjl : j < l.length) (h : ∀ v ∈ l.take i, v = none) :
    l.getD j none = none := by
  rw [List.getD_eq_getElem _ none hjl]
  refine h l[j] ?_
  have hjt : j < (l.take i).length := by
    rw [List.length_take]
    omega
  have : (l.take i)[j] = l[j] := List.getElem_take ..
  rw [← this]
  exact List.getElem_mem hjt

lemma getD_eq_none_of_drop_none (l : List Val) (i j : ℕ) (hj : i < j)
    (hjl : j < l.length) (h : ∀ v ∈ l.drop (i + 1), v = none) :
    l.getD j none = none := by
  have hjd : j - (i + 1) < (l.drop (i + 1)).length := by
    rw [List.length_drop]
    omega
  have h9 : (l.drop (i + 1))[j - (i + 1)]? = l[j]? := by
    rw [List.getElem?_drop]
    congr 1
    omega
  rw [List.getD_eq_getElem?_getD, ← h9, List.getElem?_eq_getElem hjd,
    h _ (List.getElem_mem hjd)]
  rfl

lemma interpVals_nonesDown (g : DSeries → ℕ → ℚ) (s : DSeries) :
    nonesDown (interpVals g true s) := by
  intro i hi hni j hj
  rw [length_interpVals] at hi
  have hil : i < (s.map Prod.snd).length := by rwa [List.length_map]
  have hjl : j < (s.map Prod.snd).length := by omega
  rw [getD_interpVals g true s i hi] at hni
  rw [getD_interpVals g true s j (by omega)]
  set l := s.map Prod.snd with hldef
  cases hv : l.getD i none with
  | some x =>
    rw [hv] at hni
    simp at hni
  | none =>
    rw [hv] at hni
    by_cases hb : hasSomeBefore l i
    · rw [if_pos hb] at hni
      by_cases hafter : hasSomeAfter l i
      · rw [if_pos hafter] at hni
        simp at hni
      · rw [if_neg hafter, if_pos rfl] at hni
        rw [lastSome_eq_none_iff] at hni
        unfold hasSomeBefore at hb
        rw [List.any_eq_true] at hb
        obtain ⟨v, hvmem, hvs⟩ := hb
        rw [hni v hvmem] at hvs
        simp at hvs
    · rw [if_neg hb] at hni
      rw [Bool.not_eq_true, hasSomeBefore_eq_false_iff] at hb
      have hjv : l.getD j none = none := by
        rcases Nat.lt_or_ge j i with hji | hji
        · exact getD_eq_none_of_take_none l i j hji hjl hb
        · rw [show j = i from by omega]
          exact hv
      rw [hjv]
      have hbj : hasSomeBefore l j = false := by
        rw [hasSomeBefore_eq_false_iff]
        intro v hvmem
        refine hb v ?_
        have : l.take j = (l.take i).take j := by
          rw [List.take_take]
          congr 1
          omega
        rw [this] at hvmem
        exact List.take_subset _ _ hvmem
      rw [hbj]
      simp

lemma interpVals_nonesEdge (g : DSeries → ℕ → ℚ) (s : DSeries) :
    nonesEdge (interpVals g false s) := by
  intro i hi hni
  rw [length_interpVals] at hi
  have hil : i < (s.map Prod.snd).length := by rwa [List.length_map]
  rw [getD_interpVals g false s i hi] at hni
  set l := s.map Prod.snd with hldef
  cases hv : l.getD i none with
  | some x =>
    rw [hv] at hni
    simp at hni
  | none =>
    rw [hv] at hni
    by_cases hb : hasSomeBefore l i
    · rw [if_pos hb] at hni
      by_cases hafter : hasSomeAfter l i
      · rw [if_pos hafter] at hni
        simp at hni
      · right
        rw [Bool.not_eq_true, hasSomeAfter_eq_false_iff] at hafter
        intro j hj
        by_cases hjl : j < (interpVals g false s).length
        · have hjl2 : j < l.length := by
            rw [length_interpVals] at hjl
            rwa [hldef, List.length_map]
          rw [getD_interpVals g false s j (by rwa [hldef, List.length_map] at hjl2)]
          have hjv : l.getD j none = none := by
            rcases Nat.lt_or_ge i j with hij | hij
            · exact getD_eq_none_of_drop_none l i j hij hjl2 hafter
            · rw [show j = i from by omega]
              exact hv
          rw [← hldef, hjv]
          have haj : hasSomeAfter l j = false := by
            rw [hasSomeAfter_eq_false_iff]
            intro v hvmem
            refine hafter v ?_
            have : l.drop (j + 1) = (l.drop (i + 1)).drop (j - i) := by
              rw [List.drop_drop]
              congr 1
              omega
            rw [this] at hvmem
            exact List.drop_subset _ _ hvmem
          rw [haj]
          simp
        · exact getD_of_length_le _ j (by omega)
    · left
      rw [if_neg hb] at hni
      rw [Bool.not_eq_true, hasSomeBefore_eq_false_iff] at hb
      intro j hj
      have hjl2 : j < l.length := by omega
      rw [getD_interpVals g false s j (by rwa [hldef, List.length_map] at hjl2)]
      have hjv : l.getD j none = none := by
        rcases Nat.lt_or_ge j i with hji | hji
        · exact getD_eq_none_of_take_none l i j hji hjl2 hb
        · rw [show j = i from by omega]
          exact hv
      rw [← hldef, hjv]
      have hbj : hasSomeBefore l j = false := by
        rw [hasSomeBefore_eq_false_iff]
        intro v hvmem
        refine hb v ?_
        have : l.take j = (l.take i).take j := by
          rw [List.take_take]
          congr 1
          omega
        rw [this] at hvmem
        exact List.take_subset _ _ hvmem
      rw [hbj]
      simp

lemma interpVals_fixed_true (g : DSeries → ℕ → ℚ) (s : DSeries)
    (h : nonesDown (s.map Prod.snd)) :
    interpVals g true s = s.map Prod.snd := by
  apply List.ext_getElem (by rw [length_interpVals, List.length_map])
  intro i hi hli
  rw [length_interpVals] at hi
  rw [← List.getD_eq_getElem _ none, ← List.getD_eq_getElem _ none,
    getD_interpVals g true s i hi]
  cases hv : (s.map Prod.snd).getD i none with
  | some x => rfl
  | none =>
    have hb : hasSomeBefore (s.map Prod.snd) i = false := by
      rw [hasSomeBefore_eq_false_iff]
      intro v hvmem
      obtain ⟨j, hj, hget⟩ := List.getElem_of_mem hvmem
      have hjlen : j < (s.map Prod.snd).length := by
        have := hj
        simp only [List.length_take] at this
        rw [List.length_map]
        omega
      rw [List.getElem_take] at hget
      have hji : j ≤ i := by
        have := hj
        simp only [List.length_take] at this
        omega
      rw [← hget, ← List.getD_eq_getElem _ none hjlen]
      exact h i (by rw [List.length_map]; exact hi) hv j hji
    rw [hb]
    simp

lemma interpVals_fixed_false (g : DSeries → ℕ → ℚ) (s : DSeries)
    (h : nonesEdge (s.map Prod.snd)) :
    interpVals g false s = s.map Prod.snd := by
  apply List.ext_getElem (by rw [length_interpVals, List.length_map])
  intro i hi hli
  rw [length_interpVals] at hi
  rw [← List.getD_eq_getElem _ none, ← List.getD_eq_getElem _ none,
    getD_interpVals g false s i hi]
  cases hv : (s.map Prod.snd).getD i none with
  | some x => rfl
  | none =>
    rcases h i (by rw [List.length_map]; exact hi) hv with hleft | hright
    · have hb : hasSomeBefore (s.map Prod.snd) i = false := by
        rw [hasSomeBefore_eq_false_iff]
        intro v hvmem
        obtain ⟨j, hj, hget⟩ := List.getElem_of_mem hvmem
        have hjlen : j < (s.map Prod.snd).length := by
          have := hj
          simp only [List.length_take] at this
          rw [List.length_map]
          omega
        rw [List.getElem_take] at hget
        have hji : j ≤ i := by
          have := hj
          simp only [List.length_take] at this
          omega
        rw [← hget, ← List.getD_eq_getElem _ none hjlen]
        exact hleft j hji
      rw [hb]
      simp
    · have ha : hasSomeAfter (s.map Prod.snd) i = false := by
        rw [hasSomeAfter_eq_false_iff]
        intro v hvmem
        obtain ⟨j, hj, hget⟩ := List.getElem_of_mem hvmem
        have hjlen : i + 1 + j < (s.map Prod.snd).length := by
          have := hj
          simp only [List.length_drop] at this
          omega
        rw [List.getElem_drop] at hget
        rw [← hget, ← List.getD_eq_getElem _ none hjlen]
        exact hright (i + 1 + j) (by omega)
      rw [ha]
      by_cases hb : hasSomeBefore (s.map Prod.snd) i
      · rw [if_pos hb]
        simp
      · rw [if_neg hb]

/-! ## Shape decompositions of the placeholder patterns -/

lemma getD_replicate_none (k i : ℕ) :
    (List.replicate k (none : Val)).getD i none = none := by
  rw [List.getD_eq_getElem?_getD, List.getElem?_replicate]
  split <;> rfl

lemma getD_append_left_of_lt (l₁ l₂ : List Val) (i : ℕ) (h : i < l₁.length) :
    (l₁ ++ l₂).getD i none = l₁.getD i none := by
  rw [List.getD_eq_getElem?_getD, List.getD_eq_getElem?_getD,
    List.getElem?_append_left h]

lemma getD_append_right_of_le (l₁ l₂ : List Val) (i : ℕ) (h : l₁.length ≤ i) :
    (l₁ ++ l₂).getD i none = l₂.getD (i - l₁.length) none := by
  rw [List.getD_eq_getElem?_getD, List.getD_eq_getElem?_getD,
    List.getElem?_append_right h]

lemma nonesDown_cons_none (t : List Val) (h : nonesDown (none :: t)) :
    nonesDown t := by
  intro i hi hni j hj
  have := h (i + 1) (by simpa using Nat.succ_lt_succ hi)
    (by rwa [List.getD_cons_succ]) (j + 1) (by omega)
  rwa [List.getD_cons_succ] at this

lemma shape_of_nonesDown (l : List Val) (h : nonesDown l) :
    ∃ k m, l = List.replicate k none ++ m ∧ ∀ v ∈ m, v ≠ none := by
  induction l with
  | nil => exact ⟨0, [], rfl, by simp⟩
  | cons v t ih =>
    cases v with
    | some x =>
      refine ⟨0, some x :: t, rfl, ?_⟩
      intro v hv
      rcases List.mem_cons.mp hv with rfl | hvt
      · simp
      · intro hcontra
        subst hcontra
        obtain ⟨i, hi, hget⟩ := List.getElem_of_mem hvt
        have hni : (some x :: t).getD (i + 1) none = none := by
          rw [List.getD_cons_succ, List.getD_eq_getElem _ none hi, hget]
        have := h (i + 1) (by simpa using Nat.succ_lt_succ hi) hni 0 (by omega)
        rw [List.getD_cons_zero] at this
        cases this
    | none =>
      obtain ⟨k, m, heq, hm⟩ := ih (nonesDown_cons_none t h)
      refine ⟨k + 1, m, ?_, hm⟩
      rw [List.replicate_succ, List.cons_append, heq]

lemma nonesDown_of_shape (k : ℕ) (m : List Val) (hm : ∀ v ∈ m, v ≠ none) :
    nonesDown (List.replicate k none ++ m) := by
  intro i hi hni j hj
  have hik : i < k := by
    by_contra hik
    push_neg at hik
    have hkl : (List.replicate k (none : Val)).length ≤ i := by
      simpa using hik
    rw [getD_append_right_of_le _ _ i hkl] at hni
    have him : i - (List.replicate k (none : Val)).length < m.length := by
      simp only [List.length_append, List.length_replicate] at hi
      simp only [List.length_replicate]
      omega
    rw [List.getD_eq_getElem _ none him] at hni
    exact hm _ (List.getElem_mem him) hni
  have hjk : j < k := by omega
  rw [getD_append_left_of_lt _ _ j (by simpa using hjk)]
  exact getD_replicate_none k j

lemma nonesDown_sublist (l' l : List Val) (hs : List.Sublist l' l) (h : nonesDown l) :
    nonesDown l' := by
  obtain ⟨k, m, rfl, hm⟩ := shape_of_nonesDown l h
  obtain ⟨a, b, rfl, ha, hb⟩ := List.sublist_append_iff.mp hs
  obtain ⟨k', -, rfl⟩ := List.sublist_replicate_iff.mp ha
  exact nonesDown_of_shape k' b fun v hv => hm v (hb.subset hv)

lemma nonesUp_cons (v : Val) (t : List Val) (h : nonesUp (v :: t)) :
    nonesUp t := by
  intro i hi hni j hj
  have := h (i + 1) (by simpa using Nat.succ_lt_succ hi)
    (by rwa [List.getD_cons_succ]) (j + 1) (by omega)
  rwa [List.getD_cons_succ] at this

lemma shape_of_nonesUp (l : List Val) (h : nonesUp l) :
    ∃ m k, l = m ++ List.replicate k none ∧ ∀ v ∈ m, v ≠ none := by
  induction l with
  | nil => exact ⟨[], 0, rfl, by simp⟩
  | cons v t ih =>
    obtain ⟨m, k, heq, hm⟩ := ih (nonesUp_cons v t h)
    cases v with
    | some x =>
      refine ⟨some x :: m, k, ?_, ?_⟩
      · rw [List.cons_append, heq]
      · intro v hv
        rcases List.mem_cons.mp hv with rfl | hvt
        · simp
        · exact hm v hvt
    | none =>
      have hall : ∀ j, (none :: t).getD j none = none :=
        fun j => h 0 (by simp) (List.getD_cons_zero ..) j (by omega)
      refine ⟨[], t.length + 1, ?_, by simp⟩
      rw [List.nil_append]
      have : ∀ v ∈ (none :: t), v = (none : Val) := by
        intro v hv
        obtain ⟨i, hi, hget⟩ := List.getElem_of_mem hv
        rw [← hget, ← List.getD_eq_getElem _ none hi]
        exact hall i
      have hrep := List.eq_replicate_of_mem this
      simpa using hrep

lemma nonesUp_of_shape (m : List Val) (k : ℕ) (hm : ∀ v ∈ m, v ≠ none) :
    nonesUp (m ++ List.replicate k none) := by
  intro i hi hni j hj
  have him : m.length ≤ i := by
    by_contra hik
    push_neg at hik
    rw [getD_append_left_of_lt _ _ i hik, List.getD_eq_getElem _ none hik] at hni
    exact hm _ (List.getElem_mem hik) hni
  by_cases hjl : j < (m ++ List.replicate k (none : Val)).length
  · rw [getD_append_right_of_le _ _ j (by omega)]
    exact getD_replicate_none k _
  · exact getD_of_length_le _ j (by omega)

lemma nonesUp_sublist (l' l : List Val) (hs : List.Sublist l' l) (h : nonesUp l) :
    nonesUp l' := by
  obtain ⟨m, k, rfl, hm⟩ := shape_of_nonesUp l h
  obtain ⟨a, b, rfl, ha, hb⟩ := List.sublist_append_iff.mp hs
  obtain ⟨k', -, rfl⟩ := List.sublist_replicate_iff.mp hb
  exact nonesUp_of_shape a k' fun v hv => hm v (ha.subset hv)

lemma nonesEdge_cons_none (t : List Val) (h : nonesEdge (none :: t)) :
    nonesEdge t := by
  intro i hi hni
  rcases h (i + 1) (by simpa using Nat.succ_lt_succ hi)
    (by rwa [List.getD_cons_succ]) with hl | hr
  · left
    intro j hj
    have := hl (j + 1) (by omega)
    rwa [List.getD_cons_succ] at this
  · right
    intro j hj
    have := hr (j + 1) (by omega)
    rwa [List.getD_cons_succ] at this

lemma shape_of_nonesEdge (l : List Val) (h : nonesEdge l) :
    ∃ k m k', l = List.replicate k none ++ (m ++ List.replicate k' none) ∧
      ∀ v ∈ m, v ≠ none := by
  induction l with
  | nil => exact ⟨0, [], 0, rfl, by simp⟩
  | cons v t ih =>
    cases v with
    | none =>
      obtain ⟨k, m, k', heq, hm⟩ := ih (nonesEdge_cons_none t h)
      refine ⟨k + 1, m, k', ?_, hm⟩
      rw [List.replicate_succ, List.cons_append, heq]
    | some x =>
      have hup : nonesUp t := by
        intro i hi hni j hj
        rcases h (i + 1) (by simpa using Nat.succ_lt_succ hi)
          (by rwa [List.getD_cons_succ]) with hl | hr
        · have := hl 0 (by omega)
          rw [List.getD_cons_zero] at this
          cases this
        · have := hr (j + 1) (by omega)
          rwa [List.getD_cons_succ] at this
      obtain ⟨m, k, heq, hm⟩ := shape_of_nonesUp t hup
      refine ⟨0, some x :: m, k, ?_, ?_⟩
      · rw [List.replicate_zero, List.nil_append, List.cons_append, heq]
      · intro v hv
        rcases List.mem_cons.mp hv with rfl | hvt
        · simp
        · exact hm v hvt

lemma nonesEdge_of_shape (k : ℕ) (m : List Val) (k' : ℕ)
    (hm : ∀ v ∈ m, v ≠ none) :
    nonesEdge (List.replicate k none ++ (m ++ List.replicate k' none)) := by
  intro i hi hni
  by_cases hik : i < k
  · left
    intro j hj
    rw [getD_append_left_of_lt _ _ j (by simp; omega)]
    exact getD_replicate_none k j
  · push_neg at hik
    have him : k + m.length ≤ i := by
      by_contra hmm
      push_neg at hmm
      rw [getD_append_right_of_le _ _ i (by simpa using hik)] at hni
      simp only [List.length_replicate] at hni
      rw [getD_append_left_of_lt _ _ _ (by omega)] at hni
      have hilt : i - k < m.length := by omega
      rw [List.getD_eq_getElem _ none hilt] at hni
      exact absurd hni (hm _ (List.getElem_mem hilt))
    right
    intro j hj
    by_cases hjl : j < (List.replicate k (none : Val) ++
        (m ++ List.replicate k' none)).length
    · rw [getD_append_right_of_le _ _ j (by simp; omega)]
      simp only [List.length_replicate]
      rw [getD_append_right_of_le _ _ _ (by omega)]
      exact getD_replicate_none k' _
    · exact getD_of_length_le _ j (by omega)

lemma nonesEdge_sublist (l' l : List Val) (hs : List.Sublist l' l) (h : nonesEdge l) :
    nonesEdge l' := by
  obtain ⟨k, m, k', rfl, hm⟩ := shape_of_nonesEdge l h
  obtain ⟨a, bc, rfl, ha, hbc⟩ := List.sublist_append_iff.mp hs
  obtain ⟨b, c, rfl, hb, hc⟩ := List.sublist_append_iff.mp hbc
  obtain ⟨ka, -, rfl⟩ := List.sublist_replicate_iff.mp ha
  obtain ⟨kc, -, rfl⟩ := List.sublist_replicate_iff.mp hc
  exact nonesEdge_of_shape ka b kc fun v hv => hm v (hb.subset hv)

/-! ## The fill dispatcher and reindexed lookups -/

lemma applyFillVals_pattern (m : FillMethod) (s : DSeries) :
    fillPattern m (applyFillVals m s) := by
  cases m with
  | ffill => exact ffillVals_nonesDown (s.map Prod.snd)
  | bfill => exact bfillVals_nonesUp (s.map Prod.snd)
  | interp g et =>
    cases et with
    | true => exact interpVals_nonesDown g s
    | false => exact interpVals_nonesEdge g s

lemma fillPattern_sublist (m : FillMethod) (l' l : List Val)
    (hs : List.Sublist l' l) (h : fillPattern m l) : fillPattern m l' := by
  cases m with
  | ffill => exact nonesDown_sublist l' l hs h
  | bfill => exact nonesUp_sublist l' l hs h
  | interp g et =>
    cases et with
    | true => exact nonesDown_sublist l' l hs h
    | false => exact nonesEdge_sublist l' l hs h

lemma applyFillVals_fixed (m : FillMethod) (s : DSeries)
    (h : fillPattern m (s.map Prod.snd)) :
    applyFillVals m s = s.map Prod.snd := by
  cases m with
  | ffill => exact ffillVals_fixed (s.map Prod.snd) h
  | bfill => exact bfillVals_fixed (s.map Prod.snd) h
  | interp g et =>
    cases et with
    | true => exact interpVals_fixed_true g s h
    | false => exact interpVals_fixed_false g s h

lemma length_applyFillVals (m : FillMethod) (s : DSeries) :
    (applyFillVals m s).length = s.length := by
  cases m with
  | ffill => rw [applyFillVals, length_ffillVals, List.length_map]
  | bfill => rw [applyFillVals, length_bfillVals, List.length_map]
  | interp g et => rw [applyFillVals, length_interpVals]

lemma zip_fst_snd {α β : Type} (s : List (α × β)) :
    List.zip (s.map Prod.fst) (s.map Prod.snd) = s := by
  induction s with
  | nil => rfl
  | cons r t ih => simp [ih]

lemma applyFillS_fixed (m : FillMethod) (s : DSeries)
    (h : fillPattern m (s.map Prod.snd)) : applyFillS m s = s := by
  unfold applyFillS
  rw [applyFillVals_fixed m s h]
  exact zip_fst_snd s

lemma dIndex_applyFillS (m : FillMethod) (s : DSeries) :
    dIndex (applyFillS m s) = dIndex s := by
  unfold applyFillS dIndex
  rw [List.map_fst_zip]
  rw [List.length_map, length_applyFillVals]

lemma vals_applyFillS (m : FillMethod) (s : DSeries) :
    (applyFillS m s).map Prod.snd = applyFillVals m s := by
  unfold applyFillS
  rw [List.map_snd_zip]
  rw [length_applyFillVals, dIndex, List.length_map]

lemma lookupD_cons_self (u : ℤ) (v : Val) (F : DSeries) :
    lookupD ((u, v) :: F) u = v := by
  unfold lookupD
  rw [List.find?_cons_of_pos _ (by simp)]

lemma lookupD_cons_of_ne (u : ℤ) (v : Val) (F : DSeries) (d : ℤ) (h : ¬ u = d) :
    lookupD ((u, v) :: F) d = lookupD F d := by
  unfold lookupD
  rw [List.find?_cons_of_neg _ (by simpa using h)]

lemma dIndex_reindexTo (s : DSeries) (idx : List ℤ) :
    dIndex (reindexTo s idx) = idx := by
  unfold dIndex reindexTo
  rw [List.map_map]
  exact List.map_id idx

lemma vals_reindexTo (s : DSeries) (idx : List ℤ) :
    (reindexTo s idx).map Prod.snd = idx.map (lookupD s) := by
  unfold reindexTo
  rw [List.map_map]
  rfl

lemma reindexTo_self (s : DSeries) (h : (dIndex s).Nodup) :
    reindexTo s (dIndex s) = s := by
  induction s with
  | nil => rfl
  | cons r t ih =>
    obtain ⟨d, v⟩ := r
    have hnd : d ∉ dIndex t := by
      have := h
      rw [dIndex, List.map_cons, List.nodup_cons] at this
      exact this.1
    have hnt : (dIndex t).Nodup := by
      have := h
      rw [dIndex, List.map_cons, List.nodup_cons] at this
      exact this.2
    show reindexTo ((d, v) :: t) (dIndex ((d, v) :: t)) = (d, v) :: t
    unfold dIndex
    rw [List.map_cons]
    unfold reindexTo
    rw [List.map_cons, lookupD_cons_self]
    congr 1
    have hcong : (t.map Prod.fst).map
        (fun d' => (d', lookupD ((d, v) :: t) d')) =
        (t.map Prod.fst).map (fun d' => (d', lookupD t d')) := by
      apply List.map_congr_left
      intro d' hd'
      rw [lookupD_cons_of_ne d v t d' (fun hh => hnd (hh ▸ hd'))]
    show (t.map Prod.fst).map (fun d' => (d', lookupD ((d, v) :: t) d')) = t
    rw [hcong]
    exact ih hnt

lemma index_union_self (a : List ℤ) : index_union a a = a := by
  unfold index_union
  rw [if_pos rfl]

lemma sorted_lt_of_le_nodup {l : List ℤ} (hs : l.Sorted (· ≤ ·))
    (hn : l.Nodup) : l.Sorted (· < ·) :=
  (List.Pairwise.and hs hn).imp fun h => lt_of_le_of_ne h.1 h.2

lemma index_union_sorted (a b : List ℤ) (ha : a.Sorted (· < ·))
    (hb : b.Sorted (· < ·)) :
    (index_union a b).Sorted (· < ·) ∧
      (∀ d ∈ a, d ∈ index_union a b) ∧ ∀ d ∈ b, d ∈ index_union a b := by
  unfold index_union
  split_ifs with h1 h2 h3
  · exact ⟨ha, fun d hd => hd, fun d hd => h1 ▸ hd⟩
  · exact ⟨hb, fun d hd => absurd hd (by rw [h2]; exact List.not_mem_nil d),
      fun d hd => hd⟩
  · exact ⟨ha, fun d hd => hd,
      fun d hd => absurd hd (by rw [h3]; exact List.not_mem_nil d)⟩
  · have hnd : ((a ++ b).dedup).Nodup := List.nodup_dedup _
    have hperm := List.perm_insertionSort (α := ℤ) (· ≤ ·) (a ++ b).dedup
    refine ⟨?_, ?_, ?_⟩
    · exact sorted_lt_of_le_nodup (List.sorted_insertionSort (· ≤ ·) _)
        (hperm.nodup_iff.mpr hnd)
    · intro d hd
      rw [hperm.mem_iff, List.mem_dedup]
      exact List.mem_append_left b hd
    · intro d hd
      rw [hperm.mem_iff, List.mem_dedup]
      exact List.mem_append_right a hd

lemma map_lookup_sublist (F : DSeries) : ∀ T : List ℤ,
    T.Sorted (· < ·) → (F.map Prod.fst).Sorted (· < ·) →
    (∀ d ∈ T, d ∈ F.map Prod.fst) →
    List.Sublist (T.map (lookupD F)) (F.map Prod.snd) := by
  induction F with
  | nil =>
    intro T _ _ hsub
    cases T with
    | nil => simp
    | cons d T' => simpa using hsub d (by simp)
  | cons uv F' ih =>
    intro T hT hF hsub
    obtain ⟨u, v⟩ := uv
    rw [List.map_cons] at hF
    have hu_lt : ∀ e ∈ F'.map Prod.fst, u < e := (List.sorted_cons.mp hF).1
    have hF' : (F'.map Prod.fst).Sorted (· < ·) := (List.sorted_cons.mp hF).2
    cases T with
    | nil => simp
    | cons d T' =>
      by_cases hdu : d = u
      · subst hdu
        rw [List.map_cons, List.map_cons, lookupD_cons_self]
        refine List.Sublist.cons₂ v ?_
        have hT'eq : T'.map (lookupD ((d, v) :: F')) = T'.map (lookupD F') := by
          apply List.map_congr_left
          intro d' hd'
          have hlt : d < d' := (List.sorted_cons.mp hT).1 d' hd'
          exact lookupD_cons_of_ne d v F' d' (by omega)
        rw [hT'eq]
        refine ih T' (List.sorted_cons.mp hT).2 hF' ?_
        intro e he
        have hde : d < e := (List.sorted_cons.mp hT).1 e he
        have hme := hsub e (List.mem_cons_of_mem d he)
        simp only [List.map_cons, List.mem_cons] at hme
        rcases hme with h1 | h1
        · omega
        · exact h1
      · have hd_in : d ∈ F'.map Prod.fst := by
          have hmd := hsub d (List.mem_cons_self d T')
          simp only [List.map_cons, List.mem_cons] at hmd
          rcases hmd with h1 | h1
          · exact absurd h1 hdu
          · exact h1
        have hud : u < d := hu_lt d hd_in
        have hcong : (d :: T').map (lookupD ((u, v) :: F')) =
            (d :: T').map (lookupD F') := by
          apply List.map_congr_left
          intro d' hd'
          rcases List.mem_cons.mp hd' with rfl | hd'T
          · exact lookupD_cons_of_ne u v F' d' (by omega)
          · have : d < d' := (List.sorted_cons.mp hT).1 d' hd'T
            exact lookupD_cons_of_ne u v F' d' (by omega)
        rw [hcong, List.map_cons]
        refine List.Sublist.cons v ?_
        refine ih (d :: T') hT hF' ?_
        intro e he
        rcases List.mem_cons.mp he with rfl | heT
        · exact hd_in
        · have hde : d < e := (List.sorted_cons.mp hT).1 e heT
          have hme := hsub e (List.mem_cons_of_mem d heT)
          simp only [List.map_cons, List.mem_cons] at hme
          rcases hme with h1 | h1
          · omega
          · exact h1

/-! ## Idempotence of reindex on a single-entity series -/

lemma reindexS_eq (src target : DSeries) (m : FillMethod) :
    reindexS src target m true true =
      reindexTo
        (applyFillS m
          (reindexTo src (index_union (dIndex src) (dIndex target))))
        (dIndex target) := by
  unfold reindexS
  rfl

lemma reindexS_idem_core (src target : DSeries) (m : FillMethod)
    (hsrc : (dIndex src).Sorted (· < ·))
    (htar : (dIndex target).Sorted (· < ·)) :
    reindexS (reindexS src target m true true) target m true true =
      reindexS src target m true true := by
  obtain ⟨hUsort, -, hTsubU⟩ :=
    index_union_sorted (dIndex src) (dIndex target) hsrc htar
  set U : List ℤ := index_union (dIndex src) (dIndex target) with hU
  set F : DSeries := applyFillS m (reindexTo src U) with hF
  set R1 : DSeries := reindexTo F (dIndex target) with hR1
  have hFidx : F.map Prod.fst = U := by
    rw [hF]
    have := dIndex_applyFillS m (reindexTo src U)
    rw [dIndex] at this
    rw [this, dIndex_reindexTo]
  have hR1idx : dIndex R1 = dIndex target := by
    rw [hR1, dIndex_reindexTo]
  have hR1nodup : (dIndex R1).Nodup := by
    rw [hR1idx]
    exact htar.nodup
  have hpattern : fillPattern m (R1.map Prod.snd) := by
    have hvals : R1.map Prod.snd = (dIndex target).map (lookupD F) := by
      rw [hR1, vals_reindexTo]
    have hsl : List.Sublist ((dIndex target).map (lookupD F))
        (F.map Prod.snd) := by
      refine map_lookup_sublist F (dIndex target) htar ?_ ?_
      · rw [hFidx]
        exact hUsort
      · intro d hd
        rw [hFidx]
        exact hTsubU d hd
    have hFvals : F.map Prod.snd = applyFillVals m (reindexTo src U) := by
      rw [hF, vals_applyFillS]
    have hFpat : fillPattern m (F.map Prod.snd) := by
      rw [hFvals]
      exact applyFillVals_pattern m (reindexTo src U)
    rw [hvals]
    exact fillPattern_sublist m _ _ hsl hFpat
  have hfix : applyFillS m R1 = R1 := applyFillS_fixed m R1 hpattern
  have hself : reindexTo R1 (dIndex target) = R1 := by
    rw [← hR1idx]
    exact reindexTo_self R1 hR1nodup
  calc reindexS (reindexS src target m true true) target m true true
      = reindexS R1 target m true true := by rw [reindexS_eq src target m]
    _ = reindexTo (applyFillS m (reindexTo R1
          (index_union (dIndex R1) (dIndex target)))) (dIndex target) :=
        reindexS_eq R1 target m
    _ = R1 := by
        rw [hR1idx, index_union_self, ← hR1idx,
          reindexTo_self R1 hR1nodup, hfix, reindexTo_self R1 hR1nodup]
    _ = reindexS src target m true true := (reindexS_eq src target m).symm

/-! ## Bridging a panel and its per-entity series -/

lemma entityRows_cons_self {β : Type} (e : Entity) (b : β)
    (rest : List (Entity × β)) :
    entityRows ((e, b) :: rest) e = b :: entityRows rest e := by
  simp [entityRows, List.filter_cons]

lemma entityRows_cons_ne {β : Type} (e k : Entity) (b : β)
    (rest : List (Entity × β)) (h : ¬ e = k) :
    entityRows ((e, b) :: rest) k = entityRows rest k := by
  simp [entityRows, List.filter_cons, h]

lemma lookupM_cons_self (e : Entity) (d : ℤ) (v : Val) (rest : List MRow) :
    lookupM ((e, (d, v)) :: rest) (e, d) = v := by
  unfold lookupM
  rw [List.find?_cons_of_pos _ (by simp)]

lemma lookupM_cons_of_ne (e : Entity) (d : ℤ) (v : Val) (rest : List MRow)
    (p : Entity × ℤ) (h : ¬ (e = p.1 ∧ d = p.2)) :
    lookupM ((e, (d, v)) :: rest) p = lookupM rest p := by
  unfold lookupM
  rw [List.find?_cons_of_neg]
  intro hc
  simp only [Bool.and_eq_true, beq_iff_eq] at hc
  exact h hc

lemma lookupM_eq_lookupD (rows : List MRow) (k : Entity) (d : ℤ) :
    lookupM rows (k, d) = lookupD (entityRows rows k) d := by
  induction rows with
  | nil => rfl
  | cons r rest ih =>
    obtain ⟨e, d', v⟩ := r
    by_cases hek : e = k
    · subst hek
      rw [entityRows_cons_self]
      by_cases hdd : d' = d
      · subst hdd
        rw [lookupM_cons_self, lookupD_cons_self]
      · rw [lookupM_cons_of_ne e d' v rest (e, d) (fun hc => hdd hc.2),
          lookupD_cons_of_ne d' v (entityRows rest e) d hdd, ih]
    · rw [entityRows_cons_ne e k (d', v) rest hek,
        lookupM_cons_of_ne e d' v rest (k, d) (fun hc => hek hc.1), ih]

lemma fst_reindexToM (x : List MRow) (idx : List (Entity × ℤ)) :
    (reindexToM x idx).map Prod.fst = idx.map Prod.fst := by
  unfold reindexToM
  rw [List.map_map]
  rfl

lemma mIndex_reindexToM (x : List MRow) (idx : List (Entity × ℤ)) :
    mIndex (reindexToM x idx) = idx := by
  unfold mIndex reindexToM
  rw [List.map_map]
  conv_rhs => rw [← List.map_id idx]
  exact List.map_congr_left fun p _ => rfl

lemma entityRows_reindexToM (x : List MRow) (idx : List (Entity × ℤ))
    (k : Entity) :
    entityRows (reindexToM x idx) k =
      reindexTo (entityRows x k) (entityDates idx k) := by
  unfold reindexToM entityRows entityDates reindexTo
  rw [List.filter_map, List.map_map, List.map_map]
  apply List.map_congr_left
  intro p hp
  have hk : p.1 = k := by
    have := (List.mem_filter.mp hp).2
    simpa using this
  simp only [Function.comp]
  rw [show lookupM x p = lookupM x (p.1, p.2) from rfl, hk,
    lookupM_eq_lookupD]
  rfl

lemma reindexToM_self (rows : List MRow) (h : (mIndex rows).Nodup) :
    reindexToM rows (mIndex rows) = rows := by
  induction rows with
  | nil => rfl
  | cons r rest ih =>
    obtain ⟨e, d, v⟩ := r
    have hm : mIndex ((e, (d, v)) :: rest) = (e, d) :: mIndex rest := rfl
    rw [hm] at h
    obtain ⟨hnot, hnd⟩ := List.nodup_cons.mp h
    have hstep : reindexToM ((e, (d, v)) :: rest) (mIndex ((e, (d, v)) :: rest))
        = (e, (d, lookupM ((e, (d, v)) :: rest) (e, d))) ::
          (mIndex rest).map
            (fun p => (p.1, (p.2, lookupM ((e, (d, v)) :: rest) p))) := rfl
    rw [hstep, lookupM_cons_self]
    have htail : (mIndex rest).map
        (fun p => (p.1, (p.2, lookupM ((e, (d, v)) :: rest) p)))
        = (mIndex rest).map (fun p => (p.1, (p.2, lookupM rest p))) := by
      apply List.map_congr_left
      intro p hp
      obtain ⟨p1, p2⟩ := p
      have hne : ¬ (e = p1 ∧ d = p2) := by
        rintro ⟨h1, h2⟩
        apply hnot
        rw [h1, h2]
        exact hp
      exact congrArg (fun z => (p1, (p2, z)))
        (lookupM_cons_of_ne e d v rest (p1, p2) hne)
    rw [htail]
    have hfold : (mIndex rest).map (fun p => (p.1, (p.2, lookupM rest p)))
        = reindexToM rest (mIndex rest) := rfl
    rw [hfold, ih hnd]

/-! ## The lexicographic order on MultiIndex labels -/

lemma lexLt_of_lexLe_ne {a b : Entity × ℤ} (h : lexLe a b) (hne : a ≠ b) :
    lexLt a b := by
  rcases h with h1 | ⟨h1, h2⟩
  · exact Or.inl h1
  · refine Or.inr ⟨h1, lt_of_le_of_ne h2 fun he => hne ?_⟩
    obtain ⟨a1, a2⟩ := a
    obtain ⟨b1, b2⟩ := b
    simp only at h1 he
    rw [h1, he]

lemma ne_of_lexLt {a b : Entity × ℤ} (h : lexLt a b) : a ≠ b := by
  rintro rfl
  rcases h with h1 | ⟨-, h2⟩
  · exact lt_irrefl _ h1
  · exact lt_irrefl _ h2

lemma lexLe_of_lexLt {a b : Entity × ℤ} (h : lexLt a b) : lexLe a b := by
  rcases h with h1 | ⟨h1, h2⟩
  · exact Or.inl h1
  · exact Or.inr ⟨h1, le_of_lt h2⟩

lemma nodup_of_sorted_lexLt {l : List (Entity × ℤ)}
    (h : l.Sorted lexLt) : l.Nodup :=
  h.imp ne_of_lexLt

lemma sorted_lexLt_of_le_nodup {l : List (Entity × ℤ)}
    (hs : l.Sorted lexLe) (hn : l.Nodup) : l.Sorted lexLt :=
  (List.Pairwise.and hs hn).imp fun h => lexLt_of_lexLe_ne h.1 h.2

lemma index_unionM_self (a : List (Entity × ℤ)) : index_unionM a a = a := by
  unfold index_unionM
  rw [if_pos rfl]

lemma index_unionM_sorted (a b : List (Entity × ℤ)) (ha : a.Sorted lexLt)
    (hb : b.Sorted lexLt) :
    (index_unionM a b).Sorted lexLt ∧
      (∀ p ∈ a, p ∈ index_unionM a b) ∧ ∀ p ∈ b, p ∈ index_unionM a b := by
  unfold index_unionM
  split_ifs with h1 h2 h3
  · exact ⟨ha, fun p hp => hp, fun p hp => h1 ▸ hp⟩
  · exact ⟨hb, fun p hp => absurd hp (by rw [h2]; exact List.not_mem_nil p),
      fun p hp => hp⟩
  · exact ⟨ha, fun p hp => hp,
      fun p hp => absurd hp (by rw [h3]; exact List.not_mem_nil p)⟩
  · have hnd : ((a ++ b).dedup).Nodup := List.nodup_dedup _
    have hperm := List.perm_insertionSort lexLe (a ++ b).dedup
    refine ⟨?_, ?_, ?_⟩
    · exact sorted_lexLt_of_le_nodup (List.sorted_insertionSort lexLe _)
        (hperm.nodup_iff.mpr hnd)
    · intro p hp
      rw [hperm.mem_iff, List.mem_dedup]
      exact List.mem_append_left b hp
    · intro p hp
      rw [hperm.mem_iff, List.mem_dedup]
      exact List.mem_append_right a hp

/-! ## Per-entity slices of a lex-sorted MultiIndex -/

lemma mem_entityDates (idx : List (Entity × ℤ)) (k : Entity) (d : ℤ) :
    d ∈ entityDates idx k ↔ (k, d) ∈ idx := by
  unfold entityDates
  rw [List.mem_map]
  constructor
  · rintro ⟨p, hp, rfl⟩
    obtain ⟨hmem, hfst⟩ := List.mem_filter.mp hp
    have : p.1 = k := by simpa using hfst
    rw [show ((k, p.2) : Entity × ℤ) = p by rw [← this]]
    exact hmem
  · intro hmem
    exact ⟨(k, d), List.mem_filter.mpr ⟨hmem, by simp⟩, rfl⟩

lemma entityDates_sorted (idx : List (Entity × ℤ)) (k : Entity)
    (h : idx.Sorted lexLt) : (entityDates idx k).Sorted (· < ·) := by
  unfold entityDates
  rw [List.Sorted, List.pairwise_map]
  have hf : (idx.filter fun p => p.1 == k).Pairwise lexLt :=
    h.filter _
  refine hf.imp_of_mem ?_
  intro p q hp hq hpq
  have hpk : p.1 = k := by simpa using (List.mem_filter.mp hp).2
  have hqk : q.1 = k := by simpa using (List.mem_filter.mp hq).2
  rcases hpq with h1 | ⟨-, h2⟩
  · rw [hpk, hqk] at h1
    exact absurd h1 (lt_irrefl k)
  · exact h2

/-! ## Reassembly of a grouped panel by the panel-apply primitive -/

lemma flatMap_congr {α β : Type} (l : List α) (f g : α → List β)
    (h : ∀ a ∈ l, f a = g a) : l.flatMap f = l.flatMap g := by
  induction l with
  | nil => rfl
  | cons x xs ih =>
    rw [List.flatMap_cons, List.flatMap_cons, h x (List.mem_cons_self x xs),
      ih fun a ha => h a (List.mem_cons_of_mem x ha)]

lemma applyPanel_congr {α β : Type} (f g : List α → List β)
    (rows : List (Entity × α))
    (h : ∀ k ∈ sortedKeys rows, f (entityRows rows k) = g (entityRows rows k)) :
    applyPanel f rows = applyPanel g rows := by
  unfold applyPanel
  exact flatMap_congr _ _ _ fun k hk => by rw [h k hk]

lemma orderedInsert_of_min (e : Entity) (l : List Entity)
    (h : ∀ x ∈ l, e ≤ x) : List.orderedInsert (· ≤ ·) e l = e :: l := by
  cases l with
  | nil => rfl
  | cons x xs =>
    simp only [List.orderedInsert]
    rw [if_pos (h x (List.mem_cons_self x xs))]

lemma sorted_min_head (e : Entity) (l : List Entity) (hs : l.Sorted (· ≤ ·))
    (hmem : e ∈ l) (hmin : ∀ x ∈ l, e ≤ x) : l = e :: l.tail := by
  cases l with
  | nil => cases hmem
  | cons x xs =>
    have hx : x = e := by
      rcases List.mem_cons.mp hmem with h | h
      · exact h.symm
      · exact le_antisymm ((List.sorted_cons.mp hs).1 e h)
          (hmin x (List.mem_cons_self x xs))
    rw [hx]
    rfl

lemma sortedKeys_sorted {β : Type} (rows : List (Entity × β)) :
    (sortedKeys rows).Sorted (· ≤ ·) :=
  List.sorted_insertionSort _ _

lemma sortedKeys_cons_of_mem {β : Type} (e : Entity) (b : β)
    (rest : List (Entity × β)) (h : e ∈ rest.map Prod.fst) :
    sortedKeys ((e, b) :: rest) = sortedKeys rest := by
  unfold sortedKeys
  have hm : ((e, b) :: rest).map Prod.fst = e :: rest.map Prod.fst := rfl
  rw [hm, List.dedup_cons_of_mem h]

lemma sortedKeys_cons_of_not_mem {β : Type} (e : Entity) (b : β)
    (rest : List (Entity × β)) (h : e ∉ rest.map Prod.fst)
    (hmin : ∀ x ∈ rest.map Prod.fst, e ≤ x) :
    sortedKeys ((e, b) :: rest) = e :: sortedKeys rest := by
  unfold sortedKeys
  have hm : ((e, b) :: rest).map Prod.fst = e :: rest.map Prod.fst := rfl
  rw [hm, List.dedup_cons_of_not_mem h]
  simp only [List.insertionSort]
  refine orderedInsert_of_min e _ fun x hx => ?_
  have hx' : x ∈ (rest.map Prod.fst).dedup :=
    (List.perm_insertionSort _ _).mem_iff.mp hx
  exact hmin x (List.mem_dedup.mp hx')

lemma applyPanel_id_grouped {β : Type} (rows : List (Entity × β))
    (h : rows.Pairwise fun a b => a.1 ≤ b.1) :
    applyPanel (fun l => l) rows = rows := by
  induction rows with
  | nil => rfl
  | cons r rest ih =>
    obtain ⟨e, b⟩ := r
    obtain ⟨hhead, htail⟩ := List.pairwise_cons.mp h
    have hmin : ∀ x ∈ rest.map Prod.fst, e ≤ x := by
      intro x hx
      obtain ⟨p, hp, rfl⟩ := List.mem_map.mp hx
      exact hhead p hp
    by_cases hmem : e ∈ rest.map Prod.fst
    · have hkeys : sortedKeys ((e, b) :: rest) = sortedKeys rest :=
        sortedKeys_cons_of_mem e b rest hmem
      have hmin' : ∀ x ∈ sortedKeys rest, e ≤ x := fun x hx =>
        hmin x ((mem_sortedKeys rest x).mp hx)
      have hsplit : sortedKeys rest = e :: (sortedKeys rest).tail :=
        sorted_min_head e (sortedKeys rest) (sortedKeys_sorted rest)
          ((mem_sortedKeys rest e).mpr hmem) hmin'
      have hnd := sortedKeys_nodup rest
      rw [hsplit] at hnd
      have henot : e ∉ (sortedKeys rest).tail := (List.nodup_cons.mp hnd).1
      unfold applyPanel
      rw [hkeys, hsplit, List.flatMap_cons, entityRows_cons_self]
      have hcong : ((sortedKeys rest).tail).flatMap
          (fun k => (entityRows ((e, b) :: rest) k).map fun b => (k, b))
          = ((sortedKeys rest).tail).flatMap
            (fun k => (entityRows rest k).map fun b => (k, b)) := by
        apply flatMap_congr
        intro k hk
        have hke : ¬ e = k := fun hek => henot (hek ▸ hk)
        rw [entityRows_cons_ne e k b rest hke]
      rw [hcong, List.map_cons, List.cons_append]
      have hrest : applyPanel (fun l => l) rest = rest := ih htail
      unfold applyPanel at hrest
      rw [hsplit, List.flatMap_cons] at hrest
      exact congrArg (List.cons (e, b)) hrest
    · have hkeys : sortedKeys ((e, b) :: rest) = e :: sortedKeys rest :=
        sortedKeys_cons_of_not_mem e b rest hmem hmin
      unfold applyPanel
      rw [hkeys, List.flatMap_cons]
      have hez : entityRows rest e = [] := by
        unfold entityRows
        have hfil : rest.filter (fun r => r.1 == e) = [] := by
          rw [List.filter_eq_nil_iff]
          intro p hp
          rw [Bool.not_eq_true, beq_eq_false_iff_ne]
          intro hpe
          exact hmem (List.mem_map.mpr ⟨p, hp, hpe⟩)
        rw [hfil]
        rfl
      have hcong : (sortedKeys rest).flatMap
          (fun k => (entityRows ((e, b) :: rest) k).map fun b => (k, b))
          = (sortedKeys rest).flatMap
            (fun k => (entityRows rest k).map fun b => (k, b)) := by
        apply flatMap_congr
        intro k hk
        have hke : ¬ e = k := by
          intro hek
          exact hmem (hek ▸ (mem_sortedKeys rest k).mp hk)
        rw [entityRows_cons_ne e k b rest hke]
      rw [entityRows_cons_self, hez, hcong]
      have hrest : applyPanel (fun l => l) rest = rest := ih htail
      unfold applyPanel at hrest
      rw [hrest]
      rfl

lemma pairwise_fstLe_of_sorted_mIndex (rows : List MRow)
    (h : (mIndex rows).Sorted lexLt) :
    rows.Pairwise fun a b => a.1 ≤ b.1 := by
  unfold mIndex at h
  rw [List.Sorted, List.pairwise_map] at h
  refine h.imp ?_
  intro a b hab
  rcases hab with h1 | ⟨h1, -⟩
  · exact le_of_lt h1
  · exact le_of_eq h1

/-! ## Idempotence of reindex on a panel -/

lemma map_fst_eq_dIndex (s : DSeries) : s.map Prod.fst = dIndex s := rfl

lemma reindexM_eq (src target : List MRow) (m : FillMethod) :
    reindexM src target m true true =
      reindexToM
        (applyPanel (applyFillS m)
          (reindexToM src (index_unionM (mIndex src) (mIndex target))))
        (mIndex target) := by
  unfold reindexM
  rfl

lemma reindexM_idem_core (src target : List MRow) (m : FillMethod)
    (hsrc : (mIndex src).Sorted lexLt)
    (htar : (mIndex target).Sorted lexLt) :
    reindexM (reindexM src target m true true) target m true true =
      reindexM src target m true true := by
  obtain ⟨hUsort, -, hTsubU⟩ :=
    index_unionM_sorted (mIndex src) (mIndex target) hsrc htar
  set U : List (Entity × ℤ) := index_unionM (mIndex src) (mIndex target)
    with hU
  set r1 : List MRow := reindexToM src U with hr1
  set r2 : List MRow := applyPanel (applyFillS m) r1 with hr2
  set R1 : List MRow := reindexToM r2 (mIndex target) with hR1
  have hR1idx : mIndex R1 = mIndex target := mIndex_reindexToM r2 (mIndex target)
  have hR1nodup : (mIndex R1).Nodup := by
    rw [hR1idx]
    exact nodup_of_sorted_lexLt htar
  have hfill : applyPanel (applyFillS m) R1 = R1 := by
    have hgrouped : R1.Pairwise fun a b => a.1 ≤ b.1 :=
      pairwise_fstLe_of_sorted_mIndex R1 (by rw [hR1idx]; exact htar)
    have hcong : applyPanel (applyFillS m) R1 = applyPanel (fun l => l) R1 := by
      apply applyPanel_congr
      intro k hk
      have hER : entityRows R1 k
          = reindexTo (entityRows r2 k) (entityDates (mIndex target) k) := by
        rw [hR1]
        exact entityRows_reindexToM r2 (mIndex target) k
      have hkR1 : k ∈ R1.map Prod.fst := (mem_sortedKeys R1 k).mp hk
      have hkT : ∃ p ∈ mIndex target, p.1 = k := by
        have hfst : R1.map Prod.fst = (mIndex target).map Prod.fst := by
          rw [hR1]
          exact fst_reindexToM r2 (mIndex target)
        rw [hfst] at hkR1
        obtain ⟨p, hp, hpk⟩ := List.mem_map.mp hkR1
        exact ⟨p, hp, hpk⟩
      obtain ⟨p0, hp0, hp0k⟩ := hkT
      have hkU : k ∈ r1.map Prod.fst := by
        have hfst : r1.map Prod.fst = U.map Prod.fst := by
          rw [hr1]
          exact fst_reindexToM src U
        rw [hfst]
        exact List.mem_map.mpr ⟨p0, hTsubU p0 hp0, hp0k⟩
      have hEr2 : entityRows r2 k = applyFillS m (entityRows r1 k) := by
        rw [hr2]
        exact entityRows_applyPanel (applyFillS m) r1 k hkU
      have hEr1 : entityRows r1 k
          = reindexTo (entityRows src k) (entityDates U k) := by
        rw [hr1]
        exact entityRows_reindexToM src U k
      have hFidx : dIndex (entityRows r2 k) = entityDates U k := by
        rw [hEr2, dIndex_applyFillS, hEr1, dIndex_reindexTo]
      have hTk : (entityDates (mIndex target) k).Sorted (· < ·) :=
        entityDates_sorted (mIndex target) k htar
      have hUk : (entityDates U k).Sorted (· < ·) :=
        entityDates_sorted U k hUsort
      have hsubk : ∀ d ∈ entityDates (mIndex target) k,
          d ∈ (entityRows r2 k).map Prod.fst := by
        intro d hd
        rw [map_fst_eq_dIndex, hFidx, mem_entityDates]
        exact hTsubU (k, d) ((mem_entityDates (mIndex target) k d).mp hd)
      have hvals : (entityRows R1 k).map Prod.snd
          = (entityDates (mIndex target) k).map (lookupD (entityRows r2 k)) := by
        rw [hER, vals_reindexTo]
      have hsl : List.Sublist
          ((entityDates (mIndex target) k).map (lookupD (entityRows r2 k)))
          ((entityRows r2 k).map Prod.snd) := by
        refine map_lookup_sublist (entityRows r2 k)
          (entityDates (mIndex target) k) hTk ?_ hsubk
        rw [map_fst_eq_dIndex, hFidx]
        exact hUk
      have hpat2 : fillPattern m ((entityRows r2 k).map Prod.snd) := by
        rw [hEr2, vals_applyFillS]
        exact applyFillVals_pattern m (entityRows r1 k)
      have hpat : fillPattern m ((entityRows R1 k).map Prod.snd) := by
        rw [hvals]
        exact fillPattern_sublist m _ _ hsl hpat2
      exact applyFillS_fixed m (entityRows R1 k) hpat
    rw [hcong]
    exact applyPanel_id_grouped R1 hgrouped
  calc reindexM (reindexM src target m true true) target m true true
      = reindexM R1 target m true true := by rw [reindexM_eq src target m]
    _ = reindexToM (applyPanel (applyFillS m) (reindexToM R1
          (index_unionM (mIndex R1) (mIndex target)))) (mIndex target) :=
        reindexM_eq R1 target m
    _ = R1 := by
        rw [hR1idx, index_unionM_self, ← hR1idx, reindexToM_self R1 hR1nodup,
          hfill, reindexToM_self R1 hR1nodup]
    _ = reindexM src target m true true := (reindexM_eq src target m).symm

/-- C5. Reindex union idempotence: for every source and target frame with
matching index types (a mismatch makes `reindex` fail its type assert, so
it returns no result at all) and every fill method, under the spec's data
model for indexes (a single date index strictly increasing, an
(entity, date) MultiIndex strictly increasing lexicographically),
`reindex(df_src, df_target, union=True, only_target_index=True)` applied a
second time — reindexing its own result against the same target with the
same method — returns the first result unchanged. -/
theorem claim_C5_reindex_idempotent (df_src df_target : DFrame)
    (m : FillMethod) (hs : wellFormed df_src) (ht : wellFormed df_target) :
    ∀ r1, reindex df_src df_target m true true = .ok r1 →
      reindex r1 df_target m true true = .ok r1 := by
  intro r1 h1
  cases df_src with
  | single s =>
    cases df_target with
    | single t =>
      have h2 : DFrame.single (reindexS s t m true true) = r1 := by
        injection h1
      subst h2
      show Except.ok
          (DFrame.single (reindexS (reindexS s t m true true) t m true true))
        = Except.ok (DFrame.single (reindexS s t m true true))
      rw [reindexS_idem_core s t m hs ht]
    | multi tr => exact Except.noConfusion h1
  | multi rows =>
    cases df_target with
    | single t => exact Except.noConfusion h1
    | multi tr =>
      have h2 : DFrame.multi (reindexM rows tr m true true) = r1 := by
        injection h1
      subst h2
      show Except.ok
          (DFrame.multi (reindexM (reindexM rows tr m true true) tr m true true))
        = Except.ok (DFrame.multi (reindexM rows tr m true true))
      rw [reindexM_idem_core rows tr m hs ht]

/-- Witness for C5: a one-row source [(date 0, 1)] reindexed with
forward-fill onto a two-date target index [0, 1] gives
[(0, 1), (1, 1)], and reindexing that result against the same target is
the identity. -/
theorem claim_C5_reindex_idempotent_witness :
    reindex
        (DFrame.single [((0 : ℤ), some (1 : ℚ)), ((1 : ℤ), some (1 : ℚ))])
        (DFrame.single [((0 : ℤ), some (2 : ℚ)), ((1 : ℤ), some (3 : ℚ))])
        FillMethod.ffill true true
      = Except.ok
        (DFrame.single [((0 : ℤ), some (1 : ℚ)), ((1 : ℤ), some (1 : ℚ))]) :=
  claim_C5_reindex_idempotent
    (DFrame.single [((0 : ℤ), some (1 : ℚ))])
    (DFrame.single [((0 : ℤ), some (2 : ℚ)), ((1 : ℤ), some (3 : ℚ))])
    FillMethod.ffill
    (by norm_num [wellFormed, dIndex, List.sorted_cons])
    (by norm_num [wellFormed, dIndex, List.sorted_cons])
    (DFrame.single [((0 : ℤ), some (1 : ℚ)), ((1 : ℤ), some (1 : ℚ))])
    rfl

/-! ## Lemmas about heaps of frame objects -/

lemma exceptBind_error {e a b : Type} (err : e) (f : a → Except e b) :
    (Except.error err : Except e a) >>= f = .error err := rfl

lemma le_foldr_max (l : List ℕ) :
    ∀ r ∈ l, r ≤ l.foldr (fun a b => max a b) 0 := by
  induction l with
  | nil =>
    intro r hr
    cases hr
  | cons x xs ih =>
    intro r hr
    rcases List.mem_cons.mp hr with rfl | hr
    · exact le_max_left _ _
    · exact le_trans (ih r hr) (le_max_right _ _)

lemma not_mem_freshH {α : Type} (h : Heap α) : freshH h ∉ h.map Prod.fst := by
  intro hmem
  have := le_foldr_max (h.map Prod.fst) (freshH h) hmem
  unfold freshH at this
  omega

lemma mem_of_readH {α : Type} (h : Heap α) (r : ℕ) (v : α)
    (hr : readH h r = some v) : r ∈ h.map Prod.fst := by
  unfold readH at hr
  cases hfind : h.find? fun p => p.1 == r with
  | none =>
    rw [hfind] at hr
    cases hr
  | some p =>
    have hp : p.1 = r := by simpa using List.find?_some hfind
    exact hp ▸ List.mem_map.mpr ⟨p, List.mem_of_find?_eq_some hfind, rfl⟩

lemma freshH_ne_of_readH {α : Type} (h : Heap α) (r : ℕ) (v : α)
    (hr : readH h r = some v) : ¬ freshH h = r := by
  intro he
  apply not_mem_freshH h
  rw [he]
  exact mem_of_readH h r v hr

lemma readH_cons_of_ne {α : Type} (q : ℕ × α) (h : Heap α) (r : ℕ)
    (hne : ¬ q.1 = r) : readH (q :: h) r = readH h r := by
  unfold readH
  rw [List.find?_cons_of_neg]
  simpa using hne

lemma readH_cons_fresh {α : Type} (h : Heap α) (w : α) (r : ℕ) (v : α)
    (hr : readH h r = some v) : readH ((freshH h, w) :: h) r = some v := by
  rw [readH_cons_of_ne (freshH h, w) h r (freshH_ne_of_readH h r v hr)]
  exact hr

lemma freshH_cons_not_mem {α : Type} (q : ℕ × α) (h : Heap α) :
    freshH (q :: h) ∉ h.map Prod.fst := by
  intro hmem
  apply not_mem_freshH (q :: h)
  rw [show (q :: h).map Prod.fst = q.1 :: h.map Prod.fst from rfl]
  exact List.mem_cons_of_mem _ hmem

lemma readH_writeH_of_ne {α : Type} (h : Heap α) (r : ℕ) (v : α) (s : ℕ)
    (hne : ¬ r = s) : readH (writeH h r v) s = readH h s := by
  induction h with
  | nil => rfl
  | cons q rest ih =>
    unfold writeH at ih ⊢
    rw [List.map_cons]
    by_cases hq : q.1 = r
    · rw [if_pos hq, readH_cons_of_ne (r, v) _ s hne,
        readH_cons_of_ne q rest s (by rw [hq]; exact hne)]
      exact ih
    · rw [if_neg hq]
      by_cases hqs : q.1 = s
      · unfold readH
        rw [List.find?_cons_of_pos _ (by simpa using hqs),
          List.find?_cons_of_pos _ (by simpa using hqs)]
      · rw [readH_cons_of_ne q _ s hqs, readH_cons_of_ne q rest s hqs]
        exact ih

lemma map_fst_writeH {α : Type} (h : Heap α) (r : ℕ) (v : α) :
    (writeH h r v).map Prod.fst = h.map Prod.fst := by
  unfold writeH
  rw [List.map_map]
  apply List.map_congr_left
  intro p _
  simp only [Function.comp]
  by_cases hp : p.1 = r
  · rw [if_pos hp]
    exact hp.symm
  · rw [if_neg hp]

lemma readH_alloc1_write {α : Type} (h : Heap α) (v1 w : α) (b : Bool)
    (s : ℕ) (u : α) (hs : readH h s = some u) :
    readH (if b then writeH ((freshH h, v1) :: h) (freshH h) w
           else ((freshH h, v1) :: h)) s = some u
      ∧ freshH h ∉ h.map Prod.fst := by
  have h1read := readH_cons_fresh h v1 s u hs
  have hne := freshH_ne_of_readH h s u hs
  refine ⟨?_, not_mem_freshH h⟩
  by_cases hb : b = true
  · rw [if_pos hb, readH_writeH_of_ne _ _ _ _ hne]
    exact h1read
  · rw [if_neg hb]
    exact h1read

lemma readH_alloc2_write {α : Type} (h : Heap α) (v1 v2 w : α) (b : Bool)
    (s : ℕ) (u : α) (hs : readH h s = some u) :
    readH (if b then
             writeH ((freshH ((freshH h, v1) :: h), v2) :: (freshH h, v1) :: h)
               (freshH ((freshH h, v1) :: h)) w
           else ((freshH ((freshH h, v1) :: h), v2) :: (freshH h, v1) :: h))
        s = some u
      ∧ freshH ((freshH h, v1) :: h) ∉ h.map Prod.fst := by
  have h1read : readH ((freshH h, v1) :: h) s = some u :=
    readH_cons_fresh h v1 s u hs
  have h2read := readH_cons_fresh ((freshH h, v1) :: h) v2 s u h1read
  have hne := freshH_ne_of_readH ((freshH h, v1) :: h) s u h1read
  refine ⟨?_, freshH_cons_not_mem _ h⟩
  by_cases hb : b = true
  · rw [if_pos hb, readH_writeH_of_ne _ _ _ _ hne]
    exact h2read
  · rw [if_neg hb]
    exact h2read

lemma rel_change_heap_of_read (powf : ℚ → ℚ → ℚ)
    (renameF : Frame Val → Frame Val) (h : Heap (Frame Val)) (df : ℕ)
    (v : Frame Val) (freq : String) (future : Bool)
    (bdays days weeks months quarters years : ℚ) (annualized rename : Bool)
    (hv : readH h df = some v) :
    rel_change_heap powf renameF h df freq future bdays days weeks months
        quarters years annualized rename
      = (do
        let pr ← convert_to_periods freq bdays days weeks months quarters
          years
        let v1 := applyF (rel_change_grp pr.1 future) v
        let h1 : Heap (Frame Val) := (freshH h, v1) :: h
        if annualized then do
          let e ← pydiv 1 pr.2
          let v2 := frameMap (vmap fun x => powf x e - 1) v1
          let r2 := freshH h1
          let h2 : Heap (Frame Val) := (r2, v2) :: h1
          pure (r2, if rename then writeH h2 r2 (renameF v2) else h2)
        else
          let v2 := frameMap (vmap fun x => x - 1) v1
          let r2 := freshH h1
          let h2 : Heap (Frame Val) := (r2, v2) :: h1
          pure (r2, if rename then writeH h2 r2 (renameF v2) else h2)) := by
  unfold rel_change_heap
  rw [hv]

lemma mean_log_change_heap_of_read (logf : ℚ → ℚ)
    (renameF : Frame Val → Frame Val) (h : Heap (Frame Val)) (df : ℕ)
    (v : Frame Val) (freq : String) (future : Bool)
    (mb md mw mm mq my xb xd xw xm xq xy : ℚ) (annualized rename : Bool)
    (hv : readH h df = some v) :
    mean_log_change_heap logf renameF h df freq future mb md mw mm mq my
        xb xd xw xm xq xy annualized rename
      = (do
        let vr ← mean_log_change logf v freq future mb md mw mm mq my
          xb xd xw xm xq xy annualized
        let r1 := freshH h
        let h1 : Heap (Frame Val) := (r1, vr) :: h
        pure (r1, if rename then writeH h1 r1 (renameF vr) else h1)) := by
  unfold mean_log_change_heap
  rw [hv]

lemma reindex_heap_of_read (h : Heap DFrame) (ds dt : ℕ) (vs vt : DFrame)
    (m : FillMethod) (union oti : Bool)
    (hs : readH h ds = some vs) (ht : readH h dt = some vt) :
    reindex_heap h ds dt m union oti
      = (do
        let vr ← reindex vs vt m union oti
        pure (freshH h, ((freshH h, vr) :: h : Heap DFrame))) := by
  unfold reindex_heap
  rw [hs, ht]

lemma add_date_offset_heap_of_read (h : Heap (List MRow)) (df : ℕ)
    (v : List MRow) (offset : ℤ) (hv : readH h df = some v) :
    add_date_offset_heap h df offset
      = (let h1 : Heap (List MRow) := (freshH h, v) :: h
         let h2 := writeH h1 (freshH h) (addOffsetRows offset v)
         .ok (freshH h2,
           ((freshH h2, addOffsetRows offset v) :: h2 : Heap (List MRow)))) := by
  unfold add_date_offset_heap
  rw [hv]

/-- C9. No in-place mutation of inputs: for every core transformation —
`rel_change` and `mean_log_change` (including when column renaming via
`new_names` is requested: their one `inplace=True` call is
`rename_columns` on `df_result`), `resample` and `reindex` (no in-place
step at all), `add_date_offset` (whose `+= offset` mutates only the fresh
copy made by `reset_index`) and the signal assemblers (including the
column sorting: their `sort_index(axis='columns', inplace=True)` writes
only to the freshly assembled `df_signals`) — whenever the call returns,
the returned reference is a newly allocated object carried by no cell of
the pre-call heap (in particular it is not the input), and the input's
heap cell still holds exactly its original frame. -/
theorem claim_C9_no_input_mutation
    (powf : ℚ → ℚ → ℚ) (logf : ℚ → ℚ) (renameF : Frame Val → Frame Val)
    (resampleF signalsF : List Val → List Val)
    (sortColsF : Frame Val → Frame Val)
    (hf : Heap (Frame Val)) (df : ℕ) (v : Frame Val)
    (freq : String) (future : Bool)
    (bdays days weeks months quarters years : ℚ)
    (mb md mw mm mq my xb xd xw xm xq xy : ℚ)
    (annualized rename : Bool)
    (hd : Heap DFrame) (ds dt : ℕ) (w : DFrame)
    (m : FillMethod) (union oti : Bool)
    (hp : Heap (List MRow)) (dp : ℕ) (vp : List MRow) (offset : ℤ)
    (hread : readH hf df = some v)
    (hreadd : readH hd ds = some w)
    (hreadp : readH hp dp = some vp) :
    (∀ r st, rel_change_heap powf renameF hf df freq future bdays days
        weeks months quarters years annualized rename = .ok (r, st) →
      readH st df = some v ∧ r ∉ hf.map Prod.fst) ∧
    (∀ r st, mean_log_change_heap logf renameF hf df freq future
        mb md mw mm mq my xb xd xw xm xq xy annualized rename
        = .ok (r, st) →
      readH st df = some v ∧ r ∉ hf.map Prod.fst) ∧
    (∀ r st, resample_heap resampleF hf df = .ok (r, st) →
      readH st df = some v ∧ r ∉ hf.map Prod.fst) ∧
    (∀ r st, reindex_heap hd ds dt m union oti = .ok (r, st) →
      readH st ds = some w ∧ r ∉ hd.map Prod.fst) ∧
    (∀ r st, add_date_offset_heap hp dp offset = .ok (r, st) →
      readH st dp = some vp ∧ r ∉ hp.map Prod.fst) ∧
    (∀ r st, signals_heap signalsF sortColsF hf df = .ok (r, st) →
      readH st df = some v ∧ r ∉ hf.map Prod.fst) := by
  refine ⟨?_, ?_, ?_, ?_, ?_, ?_⟩
  · intro r st heq
    rw [rel_change_heap_of_read powf renameF hf df v freq future bdays days
      weeks months quarters years annualized rename hread] at heq
    cases hc : convert_to_periods freq bdays days weeks months quarters
        years with
    | error err =>
      rw [hc, exceptBind_error] at heq
      exact Except.noConfusion heq
    | ok pr =>
      rw [hc, exceptBind_ok] at heq
      cases annualized with
      | false =>
        injection heq with hpair
        injection hpair with hr hst
        subst hr
        subst hst
        exact readH_alloc2_write hf
          (applyF (rel_change_grp pr.1 future) v)
          (frameMap (vmap fun x => x - 1)
            (applyF (rel_change_grp pr.1 future) v))
          (renameF (frameMap (vmap fun x => x - 1)
            (applyF (rel_change_grp pr.1 future) v)))
          rename df v hread
      | true =>
        cases hpd : pydiv 1 pr.2 with
        | error err =>
          rw [hpd] at heq
          exact Except.noConfusion heq
        | ok e =>
          rw [hpd] at heq
          injection heq with hpair
          injection hpair with hr hst
          subst hr
          subst hst
          exact readH_alloc2_write hf
            (applyF (rel_change_grp pr.1 future) v)
            (frameMap (vmap fun x => powf x e - 1)
              (applyF (rel_change_grp pr.1 future) v))
            (renameF (frameMap (vmap fun x => powf x e - 1)
              (applyF (rel_change_grp pr.1 future) v)))
            rename df v hread
  · intro r st heq
    rw [mean_log_change_heap_of_read logf renameF hf df v freq future
      mb md mw mm mq my xb xd xw xm xq xy annualized rename hread] at heq
    cases hc : mean_log_change logf v freq future mb md mw mm mq my
        xb xd xw xm xq xy annualized with
    | error err =>
      rw [hc, exceptBind_error] at heq
      exact Except.noConfusion heq
    | ok vr =>
      rw [hc, exceptBind_ok] at heq
      injection heq with hpair
      injection hpair with hr hst
      subst hr
      subst hst
      exact readH_alloc1_write hf vr (renameF vr) rename df v hread
  · intro r st heq
    unfold resample_heap at heq
    rw [hread] at heq
    injection heq with hpair
    injection hpair with hr hst
    subst hr
    subst hst
    exact ⟨readH_cons_fresh hf (applyF resampleF v) df v hread,
      not_mem_freshH hf⟩
  · intro r st heq
    cases hdt : readH hd dt with
    | none =>
      unfold reindex_heap at heq
      rw [hreadd, hdt] at heq
      exact Except.noConfusion heq
    | some vt =>
      rw [reindex_heap_of_read hd ds dt w vt m union oti hreadd hdt] at heq
      cases hri : reindex w vt m union oti with
      | error err =>
        rw [hri] at heq
        exact Except.noConfusion heq
      | ok vr =>
        rw [hri] at heq
        injection heq with hpair
        injection hpair with hr hst
        subst hr
        subst hst
        exact ⟨readH_cons_fresh hd vr ds w hreadd, not_mem_freshH hd⟩
  · intro r st heq
    rw [add_date_offset_heap_of_read hp dp vp offset hreadp] at heq
    injection heq with hpair
    injection hpair with hr hst
    subst hr
    subst hst
    have hne1 : ¬ freshH hp = dp := freshH_ne_of_readH hp dp vp hreadp
    have h1read : readH ((freshH hp, vp) :: hp) dp = some vp :=
      readH_cons_fresh hp vp dp vp hreadp
    have h2read : readH (writeH ((freshH hp, vp) :: hp) (freshH hp)
        (addOffsetRows offset vp)) dp = some vp := by
      rw [readH_writeH_of_ne _ _ _ _ hne1]
      exact h1read
    refine ⟨readH_cons_fresh _ _ dp vp h2read, ?_⟩
    intro hmem
    apply not_mem_freshH (writeH ((freshH hp, vp) :: hp) (freshH hp)
      (addOffsetRows offset vp))
    rw [map_fst_writeH]
    exact List.mem_cons_of_mem _ hmem
  · intro r st heq
    unfold signals_heap at heq
    rw [hread] at heq
    injection heq with hpair
    injection hpair with hr hst
    subst hr
    subst hst
    have hne : ¬ freshH hf = df := freshH_ne_of_readH hf df v hread
    refine ⟨?_, not_mem_freshH hf⟩
    rw [readH_writeH_of_ne _ _ _ _ hne]
    exact readH_cons_fresh hf (applyF signalsF v) df v hread

/-- Witness for C9 on one-cell heaps holding concrete frames. -/
theorem claim_C9_no_input_mutation_witness :
    (∀ r st, rel_change_heap (fun x _ => x) (fun f => f)
        [(0, Frame.single [some (1 : ℚ)])] 0 "q" false 0 0 0 0 1 0 false true
        = .ok (r, st) →
      readH st 0 = some (Frame.single [some (1 : ℚ)]) ∧
        r ∉ ([(0, Frame.single [some (1 : ℚ)])] :
          Heap (Frame Val)).map Prod.fst) ∧
    (∀ r st, mean_log_change_heap (fun x => x) (fun f => f)
        [(0, Frame.single [some (1 : ℚ)])] 0 "q" false 0 0 0 0 1 0
        0 0 0 0 2 0 false true = .ok (r, st) →
      readH st 0 = some (Frame.single [some (1 : ℚ)]) ∧
        r ∉ ([(0, Frame.single [some (1 : ℚ)])] :
          Heap (Frame Val)).map Prod.fst) ∧
    (∀ r st, resample_heap (fun l => l)
        [(0, Frame.single [some (1 : ℚ)])] 0 = .ok (r, st) →
      readH st 0 = some (Frame.single [some (1 : ℚ)]) ∧
        r ∉ ([(0, Frame.single [some (1 : ℚ)])] :
          Heap (Frame Val)).map Prod.fst) ∧
    (∀ r st, reindex_heap [(0, DFrame.single [])] 0 0 FillMethod.ffill
        true true = .ok (r, st) →
      readH st 0 = some (DFrame.single []) ∧
        r ∉ ([(0, DFrame.single [])] : Heap DFrame).map Prod.fst) ∧
    (∀ r st, add_date_offset_heap [(0, ([] : List MRow))] 0 1
        = .ok (r, st) →
      readH st 0 = some ([] : List MRow) ∧
        r ∉ ([(0, ([] : List MRow))] : Heap (List MRow)).map Prod.fst) ∧
    (∀ r st, signals_heap (fun l => l) (fun f => f)
        [(0, Frame.single [some (1 : ℚ)])] 0 = .ok (r, st) →
      readH st 0 = some (Frame.single [some (1 : ℚ)]) ∧
        r ∉ ([(0, Frame.single [some (1 : ℚ)])] :
          Heap (Frame Val)).map Prod.fst) :=
  claim_C9_no_input_mutation (fun x _ => x) (fun x => x) (fun f => f)
    (fun l => l) (fun l => l) (fun f => f)
    [(0, Frame.single [some (1 : ℚ)])] 0 (Frame.single [some (1 : ℚ)])
    "q" false 0 0 0 0 1 0
    0 0 0 0 1 0 0 0 0 0 2 0
    false true
    [(0, DFrame.single [])] 0 0 (DFrame.single [])
    FillMethod.ffill true true
    [(0, ([] : List MRow))] 0 ([] : List MRow) 1
    rfl rfl rfl

end SimFin
